import Mathlib

/-!
Verification of the Gazette broker's keyspace mirror, fragment pruning and
broker maintenance loop, as a shallow embedding of the Go sources
(`v2/pkg/keyspace/key_space.go`, `v2/pkg/broker/service.go`, and the
`gazctl` journals-prune command) into Lean.

Byte strings are modelled as `List Nat`, Etcd revisions as `Int` (Go
`int64`), and cluster/member ids as `Nat` (Go `uint64`).  Fallible Go
functions returning `error` are modelled with `Except String` or
`Option String` results.  Client-provided decoders are modelled as
functions into `Option V`.
-/

set_option maxHeartbeats 1600000

namespace Gazette

/-- Go byte strings (`[]byte` / `string`), as lists of byte values. -/
abbrev Bytes := List Nat

/-- Embedding of Go `bytes.Compare`: lexicographic comparison of byte
strings, with a proper prefix ordered first. -/
def bytesCompare : Bytes → Bytes → Ordering
  | [], [] => .eq
  | [], _ :: _ => .lt
  | _ :: _, [] => .gt
  | a :: as, b :: bs =>
    if a < b then .lt
    else if b < a then .gt
    else bytesCompare as bs

theorem bytesCompare_eq_iff : ∀ {a b : Bytes}, bytesCompare a b = .eq ↔ a = b
  | [], [] => by simp [bytesCompare]
  | [], _ :: _ => by simp [bytesCompare]
  | _ :: _, [] => by simp [bytesCompare]
  | a :: as, b :: bs => by
    unfold bytesCompare
    by_cases h1 : a < b
    · simp [h1]
      intro h; omega
    · by_cases h2 : b < a
      · simp [h1, h2]
        intro h; omega
      · have hab : a = b := by omega
        simp [h1, h2, hab, bytesCompare_eq_iff]

theorem bytesCompare_refl (a : Bytes) : bytesCompare a a = .eq :=
  bytesCompare_eq_iff.mpr rfl

/-- `bytesCompare` is antisymmetric: swapping the arguments swaps the result. -/
theorem bytesCompare_swap : ∀ (a b : Bytes), bytesCompare a b = (bytesCompare b a).swap
  | [], [] => by simp [bytesCompare, Ordering.swap]
  | [], _ :: _ => by simp [bytesCompare, Ordering.swap]
  | _ :: _, [] => by simp [bytesCompare, Ordering.swap]
  | a :: as, b :: bs => by
    unfold bytesCompare
    by_cases h1 : a < b
    · have h2 : ¬ b < a := by omega
      simp [h1, h2, Ordering.swap]
    · by_cases h2 : b < a
      · simp [h1, h2, Ordering.swap]
      · simp [h1, h2, bytesCompare_swap as bs]

theorem bytesCompare_lt_trans : ∀ {a b c : Bytes},
    bytesCompare a b = .lt → bytesCompare b c = .lt → bytesCompare a c = .lt
  | [], [], _ :: _, h1, _ => by simp [bytesCompare] at h1
  | [], _ :: _, [], _, h2 => by simp [bytesCompare] at h2
  | [], _ :: _, _ :: _, _, _ => by simp [bytesCompare]
  | [], [], [], h1, _ => by simp [bytesCompare] at h1
  | _ :: _, [], _, h1, _ => by simp [bytesCompare] at h1
  | _ :: _, _ :: _, [], _, h2 => by simp [bytesCompare] at h2
  | a :: as, b :: bs, c :: cs, h1, h2 => by
    unfold bytesCompare at h1 h2 ⊢
    by_cases hab : a < b <;> by_cases hbc : b < c
    · have : a < c := by omega
      simp [this]
    · by_cases hcb : c < b
      · simp [hbc, hcb] at h2
      · have hbc' : b = c := by omega
        have : a < c := by omega
        simp [this]
    · by_cases hba : b < a
      · simp [hab, hba] at h1
      · have hab' : a = b := by omega
        have : a < c := by omega
        simp [this]
    · by_cases hba : b < a
      · simp [hab, hba] at h1
      · by_cases hcb : c < b
        · simp [hbc, hcb] at h2
        · have hab' : a = b := by omega
          have hbc' : b = c := by omega
          subst hab' ; subst hbc'
          have h1' : ¬ a < a := by omega
          simp [h1'] at h1 h2 ⊢
          exact bytesCompare_lt_trans h1 h2

/-- Totality in `Ordering` form. -/
theorem bytesCompare_lt_of_ne_of_not_gt {a b : Bytes}
    (hne : a ≠ b) (h : bytesCompare a b ≠ .gt) : bytesCompare a b = .lt := by
  cases hc : bytesCompare a b
  · rfl
  · exact absurd (bytesCompare_eq_iff.mp hc) hne
  · exact absurd hc h

/-! ## Data model

Mirrors of the Etcd client/server message types used by
`v2/pkg/keyspace/key_space.go`.  These are types of external collaborators
(`etcdserverpb`, `mvccpb`, `clientv3`); only the fields read by the Gazette
sources are modelled. -/

/-- `mvccpb.KeyValue`: a raw key/value entry of the coordination store. -/
structure MvccKV where
  key : Bytes
  value : Bytes
  createRevision : Int
  modRevision : Int
  deriving DecidableEq, Repr, Inhabited

/-- `mvccpb.Event_EventType`: PUT or DELETE. -/
inductive EventType where
  | put
  | delete
  deriving DecidableEq, Repr, Inhabited

/-- `clientv3.Event`: a single watched key change. -/
structure Event where
  type : EventType
  kv : MvccKV
  deriving DecidableEq, Repr, Inhabited

/-- `etcdserverpb.ResponseHeader`: metadata of a coordination-store response. -/
structure ResponseHeader where
  clusterId : Nat
  memberId : Nat
  revision : Int
  raftTerm : Nat
  deriving DecidableEq, Repr, Inhabited

/-- The zero-valued `ResponseHeader`. -/
def ResponseHeader.zero : ResponseHeader :=
  { clusterId := 0, memberId := 0, revision := 0, raftTerm := 0 }

/-- `clientv3.WatchResponse`: a batch of watched events plus the response
header.  `progressNotify` models the external library's
`IsProgressNotify()` predicate as an attribute of the response. -/
structure WatchResponse where
  header : ResponseHeader
  events : List Event
  progressNotify : Bool
  deriving DecidableEq, Repr, Inhabited

/-- A decoded keyspace entry: the raw key/value plus the client-decoded
value (`keyspace.KeyValue`). -/
structure KeyValue (V : Type) where
  raw : MvccKV
  decoded : V
  deriving DecidableEq, Repr, Inhabited

/-- `keyspace.KeyValues`: the ordered list of decoded entries. -/
abbrev KeyValues (V : Type) := List (KeyValue V)

/-- A client-provided decoder (`keyspace.KeyValueDecoder`); `none` models a
decode error. -/
abbrev KeyValueDecoder (V : Type) := MvccKV → Option V

/-- The mutable state of a `keyspace.KeySpace` guarded by its lock: the
last response header and the decoded key/value mirror. -/
structure KeySpaceState (V : Type) where
  header : ResponseHeader
  keyValues : KeyValues V
  deriving DecidableEq, Repr

/-! ## patchHeader -/

/-- Embedding of `patchHeader` (key_space.go): validate an
update header against the current one, and return the update (the Go code
assigns `*h = update` on success).  The interior `MemberId` / `RaftTerm`
comparison only logs and does not affect the result. -/
def patchHeader (h update : ResponseHeader) (allowSameRevision : Bool) :
    Except String ResponseHeader :=
  if h.clusterId ≠ 0 ∧ h.clusterId ≠ update.clusterId then
    .error "etcd ClusterID mismatch"
  else if allowSameRevision ∧ update.revision < h.revision then
    .error "etcd Revision mismatch (expected >=)"
  else if ¬ allowSameRevision ∧ update.revision ≤ h.revision then
    .error "etcd Revision mismatch (expected >)"
  else
    .ok update

theorem patchHeader_ok_rev {h update : ResponseHeader} {b : Bool} {h' : ResponseHeader}
    (he : patchHeader h update b = .ok h') :
    h' = update ∧ (if b then h.revision ≤ update.revision else h.revision < update.revision) := by
  unfold patchHeader at he
  split at he
  · cases he
  · split at he
    · cases he
    · split at he
      · cases he
      · cases he
        rename_i h1 h2 h3
        cases b <;> simp_all


theorem patchHeader_ok_cluster {h update : ResponseHeader} {b : Bool} {h' : ResponseHeader}
    (he : patchHeader h update b = .ok h') :
    h.clusterId = 0 ∨ h.clusterId = update.clusterId := by
  unfold patchHeader at he
  split at he
  · cases he
  · rename_i h1
    rcases Decidable.em (h.clusterId = 0) with h0 | h0
    · exact Or.inl h0
    · right
      by_contra hne
      exact h1 ⟨h0, hne⟩

/-! ## Key/value helpers

The repository file `v2/pkg/keyspace/key_values.go` (defining
`KeyValues.Search`, `appendKeyValue` and `updateKeyValuesTail`) is not part
of the provided sources; the definitions below are modelled from the
specification's description of the apply algorithm and its failure policy. -/

/-- Modelled from the spec: `KeyValues.Search` is missing from the sources.
For a key-ordered list it returns the index at which `key` could be
inserted (the first index whose key is not less than `key`) and whether the
element at that index has exactly that key. -/
def KeyValues.search {V : Type} : KeyValues V → Bytes → Nat × Bool
  | [], _ => (0, false)
  | kv :: rest, key =>
    match bytesCompare kv.raw.key key with
    | .lt =>
      let (i, f) := KeyValues.search rest key
      (i + 1, f)
    | .eq => (0, true)
    | .gt => (0, false)

/-- Modelled from the spec: `appendKeyValue` is missing from the sources.
It decodes the raw key/value and appends the decoded entry; a decode error
is returned (second component `false`) with the list unchanged, so that the
offending key is dropped from the state. -/
def appendKeyValue {V : Type} (decode : KeyValueDecoder V) (kvs : KeyValues V)
    (kv : MvccKV) : KeyValues V × Bool :=
  match decode kv with
  | some v => (kvs ++ [⟨kv, v⟩], true)
  | none => (kvs, false)

/-- Whether the last element of the list carries exactly this key. -/
def tailFound {V : Type} (kvs : KeyValues V) (key : Bytes) : Bool :=
  match kvs.getLast? with
  | some kv => bytesCompare kv.raw.key key = .eq
  | none => false

/-- Modelled from the spec: `updateKeyValuesTail` is missing from the
sources.  It applies one watch event at the tail of the list under
construction: a PUT replaces the tail entry when it carries the event's key
(otherwise inserts), a DELETE removes such a tail entry.  A decode failure
or an inconsistent DELETE leaves the key absent and reports `false` (the
caller only logs it). -/
def updateKeyValuesTail {V : Type} (decode : KeyValueDecoder V) (kvs : KeyValues V)
    (ev : Event) : KeyValues V × Bool :=
  match ev.type with
  | .delete =>
    if tailFound kvs ev.kv.key then (kvs.dropLast, true) else (kvs, false)
  | .put =>
    appendKeyValue decode (if tailFound kvs ev.kv.key then kvs.dropLast else kvs) ev.kv

/-! ## Per-response stable event sort

`KeySpace.Apply` sorts each response's events with `sort.SliceStable`,
ordering on ascending key while preserving the relative order (ascending
`ModRevision`) of events with equal keys.  `sort.SliceStable` is Go
standard library; it is embedded extensionally as a stable insertion
sort with the same comparison. -/

/-- Stable insertion of an event into a key-sorted event list: the new
event is placed before the first event whose key is not less than its own,
so earlier events win ties (stability). -/
def insertEvt (x : Event) : List Event → List Event
  | [] => [x]
  | y :: ys =>
    if bytesCompare y.kv.key x.kv.key = .lt then y :: insertEvt x ys
    else x :: y :: ys

/-- Embedding of `sort.SliceStable(wr.Events, less-on-key)`: a stable sort
of the events on ascending key. -/
def sortEvts (evs : List Event) : List Event :=
  evs.foldr insertEvt []

/-! ## The response min-heap comparator -/

/-- Embedding of `watchResponseHeap.Less` (key_space.go):
order responses on the (key, mod-revision) of their first event, with
event-less responses first. -/
def wrLess (a b : WatchResponse) : Bool :=
  match a.events, b.events with
  | [], [] => false
  | [], _ :: _ => true
  | _ :: _, [] => false
  | ea :: _, eb :: _ =>
    match bytesCompare ea.kv.key eb.kv.key with
    | .lt => true
    | .gt => false
    | .eq => ea.kv.modRevision < eb.kv.modRevision

/-! ## Go `container/heap`

`KeySpace.Apply` drives the merge with Go's `container/heap` generic
algorithms (`Init`, `Pop`, `Push`), which are embedded here faithfully over
lists: `heapDown`/`heapUp` are the `down`/`up` sift loops of the standard
library, and `heapInit`/`heapPop`/`heapPush` the exported operations,
specialized to a slice-backed heap whose `Push`/`Pop` interface methods
append to / remove from the slice tail. -/

section Heap

variable {α : Type} [Inhabited α]

/-- Indexed read of a list (Go slice indexing). -/
def lgd (l : List α) (i : Nat) : α := l.getD i default

/-- `h.Swap(i, j)` over a list. -/
def lswap (l : List α) (i j : Nat) : List α := (l.set i (lgd l j)).set j (lgd l i)

theorem lgd_set {l : List α} {i k : Nat} {x : α} :
    lgd (l.set i x) k = if i = k ∧ i < l.length then x else lgd l k := by
  simp only [lgd, List.getD_eq_getElem?_getD, List.getElem?_set]
  by_cases h1 : i = k
  · subst h1
    by_cases h2 : i < l.length
    · simp [h2]
    · simp [h2, List.getElem?_eq_none (le_of_not_lt h2)]
  · simp [h1]

@[simp]
theorem length_lswap {l : List α} {i j : Nat} : (lswap l i j).length = l.length := by
  simp [lswap]

theorem lgd_lswap {l : List α} {i j k : Nat} (hi : i < l.length) (hj : j < l.length) :
    lgd (lswap l i j) k = if j = k then lgd l i else if i = k then lgd l j else lgd l k := by
  simp only [lswap, lgd_set, List.length_set]
  by_cases h1 : j = k <;> by_cases h2 : i = k <;> simp_all

theorem lgd_lswap_left {l : List α} {i j : Nat} (hi : i < l.length) (hj : j < l.length)
    (hne : i ≠ j) : lgd (lswap l i j) i = lgd l j := by
  rw [lgd_lswap hi hj]
  simp [hne, Ne.symm hne]

theorem lgd_lswap_right {l : List α} {i j : Nat} (hi : i < l.length) (hj : j < l.length) :
    lgd (lswap l i j) j = lgd l i := by
  rw [lgd_lswap hi hj]
  simp

theorem lgd_lswap_other {l : List α} {i j k : Nat} (hi : i < l.length) (hj : j < l.length)
    (h1 : i ≠ k) (h2 : j ≠ k) : lgd (lswap l i j) k = lgd l k := by
  rw [lgd_lswap hi hj]
  simp [h1, h2]

theorem cons_set_perm : ∀ (t : List α) (m : Nat) (a : α), m < t.length →
    List.Perm (lgd t m :: t.set m a) (a :: t)
  | b :: t', 0, a, _ => by
    simpa [lgd] using List.Perm.swap a b t'
  | b :: t', m + 1, a, h => by
    have ih := cons_set_perm t' m a (by simpa using h)
    have h1 : List.Perm (lgd t' m :: b :: t'.set m a) (b :: lgd t' m :: t'.set m a) :=
      List.Perm.swap b (lgd t' m) _
    have h2 : List.Perm (b :: lgd t' m :: t'.set m a) (b :: a :: t') := ih.cons b
    have h3 : List.Perm (b :: a :: t') (a :: b :: t') := List.Perm.swap a b t'
    have : lgd (b :: t') (m + 1) = lgd t' m := by simp [lgd]
    rw [this]
    simp only [List.set]
    exact (h1.trans h2).trans h3

theorem lswap_perm : ∀ (l : List α) (i j : Nat), i < l.length → j < l.length →
    List.Perm (lswap l i j) l
  | l, 0, 0, hi, _ => by
    cases l with
    | nil => simp at hi
    | cons a t => simp [lswap, lgd]
  | a :: t, 0, j + 1, hi, hj => by
    have hj' : j < t.length := by simpa using hj
    have : lswap (a :: t) 0 (j + 1) = lgd t j :: t.set j a := by
      simp [lswap, lgd, List.set]
    rw [this]
    exact cons_set_perm t j a hj'
  | a :: t, i + 1, 0, hi, hj => by
    have hi' : i < t.length := by simpa using hi
    have : lswap (a :: t) (i + 1) 0 = lgd t i :: t.set i a := by
      simp [lswap, lgd, List.set]
    rw [this]
    exact cons_set_perm t i a hi'
  | a :: t, i + 1, j + 1, hi, hj => by
    have hi' : i < t.length := by simpa using hi
    have hj' : j < t.length := by simpa using hj
    have : lswap (a :: t) (i + 1) (j + 1) = a :: lswap t i j := by
      simp [lswap, lgd, List.set]
    rw [this]
    exact (lswap_perm t i j hi' hj').cons a

/-! ### Binary-tree indexing

`container/heap` views the slice as a binary tree: the children of node `i`
are `2*i+1` and `2*i+2`.  `Desc i k` says `k` lies in the subtree rooted at
`i`. -/

/-- `j` is a direct child of `p` in the implicit binary tree. -/
def IsChild (j p : Nat) : Prop := j = 2 * p + 1 ∨ j = 2 * p + 2

/-- `k` is `i` or a descendant of `i` in the implicit binary tree. -/
inductive Desc : Nat → Nat → Prop where
  | refl (i : Nat) : Desc i i
  | left {i k : Nat} : Desc (2 * i + 1) k → Desc i k
  | right {i k : Nat} : Desc (2 * i + 2) k → Desc i k

theorem Desc.le {i k : Nat} (h : Desc i k) : i ≤ k := by
  induction h with
  | refl => exact Nat.le_refl _
  | left _ ih => omega
  | right _ ih => omega

theorem Desc.ge_child {i k : Nat} (h : Desc i k) : k = i ∨ 2 * i + 1 ≤ k := by
  cases h with
  | refl => exact Or.inl rfl
  | left h => exact Or.inr h.le
  | right h => exact Or.inr (by have := h.le; omega)

theorem Desc.child {j p : Nat} (h : IsChild j p) : Desc p j := by
  cases h with
  | inl h => exact h ▸ Desc.left (Desc.refl _)
  | inr h => exact h ▸ Desc.right (Desc.refl _)

theorem Desc.trans {i j k : Nat} (h1 : Desc i j) (h2 : Desc j k) : Desc i k := by
  induction h1 with
  | refl => exact h2
  | left _ ih => exact Desc.left (ih h2)
  | right _ ih => exact Desc.right (ih h2)

theorem Desc.of_child_desc {p j k : Nat} (hc : IsChild j p) (h : Desc j k) : Desc p k :=
  (Desc.child hc).trans h

theorem isChild_parent {j : Nat} (h : j ≠ 0) : IsChild j ((j - 1) / 2) := by
  rcases Nat.even_or_odd j with he | ho
  · right
    rcases he with ⟨m, hm⟩
    omega
  · left
    rcases ho with ⟨m, hm⟩
    omega

theorem parent_of_child {j p : Nat} (h : IsChild j p) : (j - 1) / 2 = p := by
  cases h with
  | inl h => omega
  | inr h => omega

/-- The parent of a strict member of `i`'s subtree is also in the subtree. -/
theorem Desc.parent_mem {i k : Nat} (h : Desc i k) (hk : k ≠ i) :
    Desc i ((k - 1) / 2) := by
  induction h with
  | refl => exact absurd rfl hk
  | @left i' k h ih =>
    by_cases he : k = 2 * i' + 1
    · subst he
      have : (2 * i' + 1 - 1) / 2 = i' := by omega
      rw [this]
      exact Desc.refl _
    · exact Desc.left (ih he)
  | @right i' k h ih =>
    by_cases he : k = 2 * i' + 2
    · subst he
      have : (2 * i' + 2 - 1) / 2 = i' := by omega
      rw [this]
      exact Desc.refl _
    · exact Desc.right (ih he)

/-- Ancestors of a common node are comparable. -/
theorem Desc.total_anc : ∀ (k a b : Nat), Desc a k → Desc b k → Desc a b ∨ Desc b a := by
  intro k
  induction k using Nat.strong_induction_on with
  | _ k ih =>
    intro a b ha hb
    by_cases hka : k = a
    · exact Or.inr (hka ▸ hb)
    · by_cases hkb : k = b
      · exact Or.inl (hkb ▸ ha)
      · have hpa := ha.parent_mem hka
        have hpb := hb.parent_mem hkb
        have hklt : (k - 1) / 2 < k := by
          have h0 : k ≠ 0 := by
            intro h0
            subst h0
            have := ha.le
            omega
          omega
        exact ih _ hklt a b hpa hpb

/-- The two sibling subtrees are disjoint. -/
theorem Desc.sibling_disjoint {i k : Nat}
    (h1 : Desc (2 * i + 1) k) (h2 : Desc (2 * i + 2) k) : False := by
  rcases Desc.total_anc k _ _ h1 h2 with h | h
  · rcases h.ge_child with h' | h' <;> omega
  · have := h.le
    omega

/-! ### The heap algorithms -/

variable (less : α → α → Bool)

/-- `container/heap`'s `down(h, i0, n)` sift loop.  At each step the Go code
selects the smaller child `j` of `i` and swaps when `h.Less(j, i)`; the two
branches below correspond to `j = 2*i+2` and `j = 2*i+1`. -/
def heapDown (l : List α) (i n : Nat) : List α :=
  if _h1 : 2 * i + 1 < n then
    if 2 * i + 2 < n ∧ less (lgd l (2 * i + 2)) (lgd l (2 * i + 1)) then
      if less (lgd l (2 * i + 2)) (lgd l i) then
        heapDown (lswap l i (2 * i + 2)) (2 * i + 2) n
      else l
    else
      if less (lgd l (2 * i + 1)) (lgd l i) then
        heapDown (lswap l i (2 * i + 1)) (2 * i + 1) n
      else l
  else l
termination_by n - i
decreasing_by
  · omega
  · omega

/-- `container/heap`'s `up(h, j)` sift loop (`i == j` only at the root). -/
def heapUp (l : List α) (j : Nat) : List α :=
  if _h1 : j = 0 then l
  else
    if less (lgd l j) (lgd l ((j - 1) / 2)) then
      heapUp (lswap l ((j - 1) / 2) j) ((j - 1) / 2)
    else l
termination_by j
decreasing_by
  omega

/-- The descending `for i := n/2 - 1; i >= 0; i--` loop of `heap.Init`. -/
def heapInitAux (n : Nat) : List α → Nat → List α
  | l, 0 => l
  | l, k + 1 => heapInitAux n (heapDown less l k n) k

/-- `heap.Init(h)`. -/
def heapInit (l : List α) : List α :=
  heapInitAux less l.length l (l.length / 2)

/-- `heap.Pop(h)` for a slice-backed heap: swap the root with the last
element, sift the new root down over the shortened range, then remove and
return the tail element. -/
def heapPop (l : List α) : α × List α :=
  let n := l.length - 1
  let l2 := heapDown less (lswap l 0 n) 0 n
  (lgd l2 n, l2.take n)

/-- `heap.Push(h, x)` for a slice-backed heap: append then sift up. -/
def heapPush (l : List α) (x : α) : List α :=
  heapUp less (l ++ [x]) l.length

/-! ### Heap correctness -/

/-- The heap ordering invariant over the first `n` positions: no child is
`less` than its parent. -/
def IsHeapN (l : List α) (n : Nat) : Prop :=
  ∀ p j, IsChild j p → j < n → less (lgd l j) (lgd l p) = false

/-- The laws `watchResponseHeap.Less` (and any comparator induced by a rank
into a linear preorder) satisfies: irreflexivity, transitivity, and
transitivity of the complementary `≤`. -/
def LessLaws : Prop :=
  (∀ a, less a a = false) ∧
  (∀ a b c, less a b = true → less b c = true → less a c = true) ∧
  (∀ a b c, less b a = false → less c b = false → less c a = false)

theorem heapDown_length : ∀ l i n, (heapDown less l i n).length = l.length := by
  intro l i n
  induction l, i, n using heapDown.induct less with
  | case1 l i n h1 h2 h3 ih =>
    rw [heapDown]
    simp [h1, h2, h3, ih]
  | case2 l i n h1 h2 h3 =>
    rw [heapDown]
    simp [h1, h2, h3]
  | case3 l i n h1 h2 h3 ih =>
    rw [heapDown]
    simp [h1, h2, h3, ih]
  | case4 l i n h1 h2 h3 =>
    rw [heapDown]
    simp [h1, h2, h3]
  | case5 l i n h1 =>
    rw [heapDown]
    simp [h1]

theorem heapDown_perm : ∀ l i n, n ≤ l.length →
    List.Perm (heapDown less l i n) l := by
  intro l i n
  induction l, i, n using heapDown.induct less with
  | case1 l i n h1 h2 h3 ih =>
    intro hn
    rw [heapDown, dif_pos h1, if_pos h2, if_pos h3]
    have hperm := lswap_perm l i (2 * i + 2) (by omega) (by omega)
    exact (ih (by simpa using hn)).trans hperm
  | case2 l i n h1 h2 h3 =>
    intro hn
    rw [heapDown, dif_pos h1, if_pos h2, if_neg h3]
  | case3 l i n h1 h2 h3 ih =>
    intro hn
    rw [heapDown, dif_pos h1, if_neg h2, if_pos h3]
    have hperm := lswap_perm l i (2 * i + 1) (by omega) (by omega)
    exact (ih (by simpa using hn)).trans hperm
  | case4 l i n h1 h2 h3 =>
    intro hn
    rw [heapDown, dif_pos h1, if_neg h2, if_neg h3]
  | case5 l i n h1 =>
    intro hn
    rw [heapDown, dif_neg h1]

/-- `heapDown` touches only positions inside the subtree of `i` and below `n`. -/
theorem heapDown_outside : ∀ l i n, ∀ k, (¬ Desc i k ∨ n ≤ k) →
    lgd (heapDown less l i n) k = lgd l k := by
  intro l i n
  induction l, i, n using heapDown.induct less with
  | case1 l i n h1 h2 h3 ih =>
    intro k hk
    rw [heapDown, dif_pos h1, if_pos h2, if_pos h3]
    have hout : ¬ Desc (2 * i + 2) k ∨ n ≤ k := by
      rcases hk with hk | hk
      · exact Or.inl fun h => hk (Desc.right h)
      · exact Or.inr hk
    rw [ih k hout]
    have hki : i ≠ k := by
      rcases hk with hk | hk
      · intro he; exact hk (he ▸ Desc.refl i)
      · omega
    have hkj : 2 * i + 2 ≠ k := by
      rcases hk with hk | hk
      · intro he; exact hk (he ▸ Desc.right (Desc.refl _))
      · omega
    simp only [lswap, lgd_set, List.length_set]
    have h4 : ¬ (2 * i + 2 = k ∧ 2 * i + 2 < l.length) := fun h => hkj h.1
    rw [if_neg h4]
    have h5 : ¬ (i = k ∧ i < l.length) := fun h => hki h.1
    rw [if_neg h5]
  | case2 l i n h1 h2 h3 =>
    intro k hk
    rw [heapDown, dif_pos h1, if_pos h2, if_neg h3]
  | case3 l i n h1 h2 h3 ih =>
    intro k hk
    rw [heapDown, dif_pos h1, if_neg h2, if_pos h3]
    have hout : ¬ Desc (2 * i + 1) k ∨ n ≤ k := by
      rcases hk with hk | hk
      · exact Or.inl fun h => hk (Desc.left h)
      · exact Or.inr hk
    rw [ih k hout]
    have hki : i ≠ k := by
      rcases hk with hk | hk
      · intro he; exact hk (he ▸ Desc.refl i)
      · omega
    have hkj : 2 * i + 1 ≠ k := by
      rcases hk with hk | hk
      · intro he; exact hk (he ▸ Desc.left (Desc.refl _))
      · omega
    simp only [lswap, lgd_set, List.length_set]
    have h4 : ¬ (2 * i + 1 = k ∧ 2 * i + 1 < l.length) := fun h => hkj h.1
    rw [if_neg h4]
    have h5 : ¬ (i = k ∧ i < l.length) := fun h => hki h.1
    rw [if_neg h5]
  | case4 l i n h1 h2 h3 =>
    intro k hk
    rw [heapDown, dif_pos h1, if_neg h2, if_neg h3]
  | case5 l i n h1 =>
    intro k hk
    rw [heapDown, dif_neg h1]

omit [Inhabited α] in
theorem LessLaws.asymm {less : α → α → Bool} (hl : LessLaws less) {a b : α}
    (h : less a b = true) : less b a = false := by
  cases hba : less b a
  · rfl
  · have := hl.2.1 _ _ _ h hba
    rw [hl.1 a] at this
    cases this

/-- The heap ordering invariant restricted to the subtree rooted at `r`. -/
def SubHeapN (l : List α) (n r : Nat) : Prop :=
  ∀ p j, Desc r p → IsChild j p → j < n → less (lgd l j) (lgd l p) = false

/-- In a heap-ordered subtree the root is minimal. -/
theorem subtree_min (hl : LessLaws less) {l : List α} {n : Nat} :
    ∀ {r k : Nat}, Desc r k → SubHeapN less l n r → k < n →
      less (lgd l k) (lgd l r) = false := by
  intro r k hk
  induction hk with
  | refl i =>
    intro _ _
    exact hl.1 _
  | @left i k h ih =>
    intro hs hkn
    have hchild : 2 * i + 1 < n := by
      have := h.le
      omega
    have hedge : less (lgd l (2 * i + 1)) (lgd l i) = false :=
      hs i (2 * i + 1) (Desc.refl i) (Or.inl rfl) hchild
    have hsub : SubHeapN less l n (2 * i + 1) := by
      intro p j hp hc hj
      exact hs p j (Desc.left hp) hc hj
    exact hl.2.2 _ _ _ hedge (ih hsub hkn)
  | @right i k h ih =>
    intro hs hkn
    have hchild : 2 * i + 2 < n := by
      have := h.le
      omega
    have hedge : less (lgd l (2 * i + 2)) (lgd l i) = false :=
      hs i (2 * i + 2) (Desc.refl i) (Or.inr rfl) hchild
    have hsub : SubHeapN less l n (2 * i + 2) := by
      intro p j hp hc hj
      exact hs p j (Desc.right hp) hc hj
    exact hl.2.2 _ _ _ hedge (ih hsub hkn)

/-- `heapDown` preserves any pointwise property of the values stored in the
subtree it sifts (the sift only permutes those values). -/
theorem heapDown_bound (P : α → Prop) : ∀ l i n, n ≤ l.length →
    (∀ k, Desc i k → k < n → P (lgd l k)) →
    ∀ k, Desc i k → k < n → P (lgd (heapDown less l i n) k) := by
  intro l i n
  induction l, i, n using heapDown.induct less with
  | case1 l i n h1 h2 h3 ih =>
    intro hn hP k hk hkn
    rw [heapDown, dif_pos h1, if_pos h2, if_pos h3]
    have hlen_i : i < l.length := by omega
    have hlen_j : 2 * i + 2 < l.length := by omega
    have hP' : ∀ k, Desc i k → k < n → P (lgd (lswap l i (2 * i + 2)) k) := by
      intro k hk hkn
      rw [lgd_lswap hlen_i hlen_j]
      by_cases hj : 2 * i + 2 = k
      · rw [if_pos hj]
        exact hP i (Desc.refl i) (by omega)
      · rw [if_neg hj]
        by_cases hi : i = k
        · rw [if_pos hi]
          exact hP (2 * i + 2) (Desc.right (Desc.refl _)) (by omega)
        · rw [if_neg hi]
          exact hP k hk hkn
    by_cases hk22 : Desc (2 * i + 2) k
    · exact ih (by simpa using hn)
        (fun k' hk' hk'n => hP' k' (Desc.right hk') hk'n) k hk22 hkn
    · rw [heapDown_outside less _ _ _ k (Or.inl hk22)]
      exact hP' k hk hkn
  | case2 l i n h1 h2 h3 =>
    intro hn hP k hk hkn
    rw [heapDown, dif_pos h1, if_pos h2, if_neg h3]
    exact hP k hk hkn
  | case3 l i n h1 h2 h3 ih =>
    intro hn hP k hk hkn
    rw [heapDown, dif_pos h1, if_neg h2, if_pos h3]
    have hlen_i : i < l.length := by omega
    have hlen_j : 2 * i + 1 < l.length := by omega
    have hP' : ∀ k, Desc i k → k < n → P (lgd (lswap l i (2 * i + 1)) k) := by
      intro k hk hkn
      rw [lgd_lswap hlen_i hlen_j]
      by_cases hj : 2 * i + 1 = k
      · rw [if_pos hj]
        exact hP i (Desc.refl i) (by omega)
      · rw [if_neg hj]
        by_cases hi : i = k
        · rw [if_pos hi]
          exact hP (2 * i + 1) (Desc.left (Desc.refl _)) (by omega)
        · rw [if_neg hi]
          exact hP k hk hkn
    by_cases hk21 : Desc (2 * i + 1) k
    · exact ih (by simpa using hn)
        (fun k' hk' hk'n => hP' k' (Desc.left hk') hk'n) k hk21 hkn
    · rw [heapDown_outside less _ _ _ k (Or.inl hk21)]
      exact hP' k hk hkn
  | case4 l i n h1 h2 h3 =>
    intro hn hP k hk hkn
    rw [heapDown, dif_pos h1, if_neg h2, if_neg h3]
    exact hP k hk hkn
  | case5 l i n h1 =>
    intro hn hP k hk hkn
    rw [heapDown, dif_neg h1]
    exact hP k hk hkn

/-- The central sift-down lemma: if every strict-descendant parent inside
the subtree of `i` already satisfies the heap ordering, sifting `i` down
heap-orders the whole subtree. -/
theorem heapDown_subheap (hl : LessLaws less) : ∀ l i n, n ≤ l.length →
    (∀ p j, Desc i p → p ≠ i → IsChild j p → j < n →
      less (lgd l j) (lgd l p) = false) →
    SubHeapN less (heapDown less l i n) n i := by
  intro l i n
  induction l, i, n using heapDown.induct less with
  | case1 l i n h1 h2 h3 ih =>
    intro hn Hc
    rw [heapDown, dif_pos h1, if_pos h2, if_pos h3]
    have hlen_i : i < l.length := by omega
    have hlen_j : 2 * i + 2 < l.length := by omega
    have hDij : Desc i (2 * i + 2) := Desc.right (Desc.refl _)
    have hsub22 : SubHeapN less l n (2 * i + 2) := by
      intro p c hp hc hcn
      exact Hc p c (hDij.trans hp) (by have := hp.le; omega) hc hcn
    have hmin : ∀ k, Desc (2 * i + 2) k → k < n →
        less (lgd l k) (lgd l (2 * i + 2)) = false :=
      fun k hk hkn => subtree_min less hl hk hsub22 hkn
    have Hc' : ∀ p c, Desc (2 * i + 2) p → p ≠ 2 * i + 2 → IsChild c p → c < n →
        less (lgd (lswap l i (2 * i + 2)) c) (lgd (lswap l i (2 * i + 2)) p) = false := by
      intro p c hp hpne hc hcn
      have hpge : 2 * (2 * i + 2) + 1 ≤ p := by
        rcases hp.ge_child with h | h
        · exact absurd h hpne
        · exact h
      have hcge : 2 * p + 1 ≤ c := by rcases hc with h | h <;> omega
      rw [lgd_lswap_other hlen_i hlen_j (by omega) (by omega),
          lgd_lswap_other hlen_i hlen_j (by omega) (by omega)]
      exact Hc p c (hDij.trans hp) (by omega) hc hcn
    have hIH := ih (by simpa using hn) Hc'
    intro p c hdesc hchild hcn
    by_cases hp22 : Desc (2 * i + 2) p
    · exact hIH p c hp22 hchild hcn
    · by_cases hpi : p = i
      · subst hpi
        have hRp : lgd (heapDown less (lswap l p (2 * p + 2)) (2 * p + 2) n) p
            = lgd l (2 * p + 2) := by
          rw [heapDown_outside less _ _ _ p (Or.inl hp22),
              lgd_lswap_left hlen_i hlen_j (by omega)]
        rcases hchild with hc1 | hc2
        · subst hc1
          have hnot : ¬ Desc (2 * p + 2) (2 * p + 1) := fun h => by have := h.le; omega
          have hRc : lgd (heapDown less (lswap l p (2 * p + 2)) (2 * p + 2) n) (2 * p + 1)
              = lgd l (2 * p + 1) := by
            rw [heapDown_outside less _ _ _ _ (Or.inl hnot),
                lgd_lswap_other hlen_i hlen_j (by omega) (by omega)]
          rw [hRc, hRp]
          exact hl.asymm h2.2
        · subst hc2
          have hpre : ∀ k, Desc (2 * p + 2) k → k < n →
              less (lgd (lswap l p (2 * p + 2)) k) (lgd l (2 * p + 2)) = false := by
            intro k hk hkn
            by_cases hk22 : k = 2 * p + 2
            · subst hk22
              rw [lgd_lswap_right hlen_i hlen_j]
              exact hl.asymm h3
            · have hkge : 2 * (2 * p + 2) + 1 ≤ k := by
                rcases hk.ge_child with h | h
                · exact absurd h hk22
                · exact h
              rw [lgd_lswap_other hlen_i hlen_j (by omega) (by omega)]
              exact hmin k hk hkn
          have hbound := heapDown_bound less
            (fun x => less x (lgd l (2 * p + 2)) = false)
            (lswap l p (2 * p + 2)) (2 * p + 2) n (by simpa using hn)
            hpre (2 * p + 2) (Desc.refl _) hcn
          rw [hRp]
          exact hbound
      · have hpge : 2 * i + 1 ≤ p := by
          rcases hdesc.ge_child with h | h
          · exact absurd h hpi
          · exact h
        have hcge : 2 * p + 1 ≤ c := by rcases hchild with h | h <;> omega
        have hc22 : ¬ Desc (2 * i + 2) c := by
          intro h
          by_cases hceq : c = 2 * i + 2
          · have hpar := parent_of_child hchild
            omega
          · have hpm := h.parent_mem hceq
            rw [parent_of_child hchild] at hpm
            exact hp22 hpm
        have hRp2 : lgd (heapDown less (lswap l i (2 * i + 2)) (2 * i + 2) n) p
            = lgd l p := by
          rw [heapDown_outside less _ _ _ p (Or.inl hp22),
              lgd_lswap_other hlen_i hlen_j (by omega)
                (fun he => hp22 (he ▸ Desc.refl _))]
        have hRc2 : lgd (heapDown less (lswap l i (2 * i + 2)) (2 * i + 2) n) c
            = lgd l c := by
          rw [heapDown_outside less _ _ _ c (Or.inl hc22),
              lgd_lswap_other hlen_i hlen_j (by omega)
                (fun he => hc22 (he ▸ Desc.refl _))]
        rw [hRp2, hRc2]
        exact Hc p c hdesc hpi hchild hcn
  | case2 l i n h1 h2 h3 =>
    intro hn Hc
    rw [heapDown, dif_pos h1, if_pos h2, if_neg h3]
    intro p c hdesc hchild hcn
    by_cases hpi : p = i
    · subst hpi
      have h3' : less (lgd l (2 * p + 2)) (lgd l p) = false := by
        cases h : less (lgd l (2 * p + 2)) (lgd l p)
        · rfl
        · exact absurd h h3
      rcases hchild with hc1 | hc2
      · subst hc1
        cases h : less (lgd l (2 * p + 1)) (lgd l p)
        · rfl
        · have := hl.2.1 _ _ _ h2.2 h
          rw [this] at h3'
          cases h3'
      · subst hc2
        exact h3'
    · have hpge : 2 * i + 1 ≤ p := by
        rcases hdesc.ge_child with h | h
        · exact absurd h hpi
        · exact h
      exact Hc p c hdesc hpi hchild hcn
  | case3 l i n h1 h2 h3 ih =>
    intro hn Hc
    rw [heapDown, dif_pos h1, if_neg h2, if_pos h3]
    have hlen_i : i < l.length := by omega
    have hlen_j : 2 * i + 1 < l.length := by omega
    have hDij : Desc i (2 * i + 1) := Desc.left (Desc.refl _)
    have hsub21 : SubHeapN less l n (2 * i + 1) := by
      intro p c hp hc hcn
      exact Hc p c (hDij.trans hp) (by have := hp.le; omega) hc hcn
    have hmin : ∀ k, Desc (2 * i + 1) k → k < n →
        less (lgd l k) (lgd l (2 * i + 1)) = false :=
      fun k hk hkn => subtree_min less hl hk hsub21 hkn
    have Hc' : ∀ p c, Desc (2 * i + 1) p → p ≠ 2 * i + 1 → IsChild c p → c < n →
        less (lgd (lswap l i (2 * i + 1)) c) (lgd (lswap l i (2 * i + 1)) p) = false := by
      intro p c hp hpne hc hcn
      have hpge : 2 * (2 * i + 1) + 1 ≤ p := by
        rcases hp.ge_child with h | h
        · exact absurd h hpne
        · exact h
      have hcge : 2 * p + 1 ≤ c := by rcases hc with h | h <;> omega
      rw [lgd_lswap_other hlen_i hlen_j (by omega) (by omega),
          lgd_lswap_other hlen_i hlen_j (by omega) (by omega)]
      exact Hc p c (hDij.trans hp) (by omega) hc hcn
    have hIH := ih (by simpa using hn) Hc'
    intro p c hdesc hchild hcn
    by_cases hp21 : Desc (2 * i + 1) p
    · exact hIH p c hp21 hchild hcn
    · by_cases hpi : p = i
      · subst hpi
        have hRp : lgd (heapDown less (lswap l p (2 * p + 1)) (2 * p + 1) n) p
            = lgd l (2 * p + 1) := by
          rw [heapDown_outside less _ _ _ p (Or.inl hp21),
              lgd_lswap_left hlen_i hlen_j (by omega)]
        rcases hchild with hc1 | hc2
        · subst hc1
          have hpre : ∀ k, Desc (2 * p + 1) k → k < n →
              less (lgd (lswap l p (2 * p + 1)) k) (lgd l (2 * p + 1)) = false := by
            intro k hk hkn
            by_cases hk21 : k = 2 * p + 1
            · subst hk21
              rw [lgd_lswap_right hlen_i hlen_j]
              exact hl.asymm h3
            · have hkge : 2 * (2 * p + 1) + 1 ≤ k := by
                rcases hk.ge_child with h | h
                · exact absurd h hk21
                · exact h
              rw [lgd_lswap_other hlen_i hlen_j (by omega) (by omega)]
              exact hmin k hk hkn
          have hbound := heapDown_bound less
            (fun x => less x (lgd l (2 * p + 1)) = false)
            (lswap l p (2 * p + 1)) (2 * p + 1) n (by simpa using hn)
            hpre (2 * p + 1) (Desc.refl _) hcn
          rw [hRp]
          exact hbound
        · subst hc2
          have hnot : ¬ Desc (2 * p + 1) (2 * p + 2) := by
            intro h
            rcases h.ge_child with h' | h' <;> omega
          have hRc : lgd (heapDown less (lswap l p (2 * p + 1)) (2 * p + 1) n) (2 * p + 2)
              = lgd l (2 * p + 2) := by
            rw [heapDown_outside less _ _ _ _ (Or.inl hnot),
                lgd_lswap_other hlen_i hlen_j (by omega) (by omega)]
          rw [hRc, hRp]
          cases h : less (lgd l (2 * p + 2)) (lgd l (2 * p + 1))
          · rfl
          · exact absurd ⟨hcn, h⟩ h2
      · have hpge : 2 * i + 1 ≤ p := by
          rcases hdesc.ge_child with h | h
          · exact absurd h hpi
          · exact h
        have hcge : 2 * p + 1 ≤ c := by rcases hchild with h | h <;> omega
        have hc21 : ¬ Desc (2 * i + 1) c := by
          intro h
          by_cases hceq : c = 2 * i + 1
          · have hpar := parent_of_child hchild
            omega
          · have hpm := h.parent_mem hceq
            rw [parent_of_child hchild] at hpm
            exact hp21 hpm
        have hRp2 : lgd (heapDown less (lswap l i (2 * i + 1)) (2 * i + 1) n) p
            = lgd l p := by
          rw [heapDown_outside less _ _ _ p (Or.inl hp21),
              lgd_lswap_other hlen_i hlen_j (by omega)
                (fun he => hp21 (he ▸ Desc.refl _))]
        have hRc2 : lgd (heapDown less (lswap l i (2 * i + 1)) (2 * i + 1) n) c
            = lgd l c := by
          rw [heapDown_outside less _ _ _ c (Or.inl hc21),
              lgd_lswap_other hlen_i hlen_j (by omega)
                (fun he => hc21 (he ▸ Desc.refl _))]
        rw [hRp2, hRc2]
        exact Hc p c hdesc hpi hchild hcn
  | case4 l i n h1 h2 h3 =>
    intro hn Hc
    rw [heapDown, dif_pos h1, if_neg h2, if_neg h3]
    intro p c hdesc hchild hcn
    by_cases hpi : p = i
    · subst hpi
      have h3' : less (lgd l (2 * p + 1)) (lgd l p) = false := by
        cases h : less (lgd l (2 * p + 1)) (lgd l p)
        · rfl
        · exact absurd h h3
      rcases hchild with hc1 | hc2
      · subst hc1
        exact h3'
      · subst hc2
        have h2' : less (lgd l (2 * p + 2)) (lgd l (2 * p + 1)) = false := by
          cases h : less (lgd l (2 * p + 2)) (lgd l (2 * p + 1))
          · rfl
          · exact absurd ⟨hcn, h⟩ h2
        exact hl.2.2 _ _ _ h3' h2'
    · exact Hc p c hdesc hpi hchild hcn
  | case5 l i n h1 =>
    intro hn Hc
    rw [heapDown, dif_neg h1]
    intro p c hdesc hchild hcn
    by_cases hpi : p = i
    · subst hpi
      have : 2 * p + 1 ≤ c := by rcases hchild with h | h <;> omega
      omega
    · exact Hc p c hdesc hpi hchild hcn

theorem lgd_eq_getElem {l : List α} {i : Nat} (h : i < l.length) : lgd l i = l[i] :=
  List.getD_eq_getElem l default h

theorem lgd_take {l : List α} {k n : Nat} (h : k < n) : lgd (l.take n) k = lgd l k := by
  simp only [lgd, List.getD_eq_getElem?_getD, List.getElem?_take_of_lt h]

theorem lgd_append_left {l : List α} {x : α} {k : Nat} (h : k < l.length) :
    lgd (l ++ [x]) k = lgd l k := by
  simp only [lgd, List.getD_eq_getElem?_getD, List.getElem?_append_left h]

theorem lgd_append_length {l : List α} {x : α} : lgd (l ++ [x]) l.length = x := by
  simp only [lgd, List.getD_eq_getElem?_getD, List.getElem?_concat_length]
  rfl

/-- Every index is in the subtree of the root. -/
theorem Desc_zero : ∀ k, Desc 0 k := by
  intro k
  induction k using Nat.strong_induction_on with
  | _ k ih =>
    by_cases h0 : k = 0
    · exact h0 ▸ Desc.refl 0
    · have hp : Desc 0 ((k - 1) / 2) := ih _ (by omega)
      exact hp.trans (Desc.child (isChild_parent h0))

/-- In a heap the root is a minimum. -/
theorem root_min (hl : LessLaws less) {l : List α} {n : Nat}
    (hh : IsHeapN less l n) : ∀ k, k < n → less (lgd l k) (lgd l 0) = false := by
  intro k hk
  exact subtree_min less hl (Desc_zero k) (fun p j _ => hh p j) hk

/-- Heap ordering for all parents at or above index `k`. -/
def HeapFrom (l : List α) (n k : Nat) : Prop :=
  ∀ p j, k ≤ p → IsChild j p → j < n → less (lgd l j) (lgd l p) = false

theorem heapInitAux_heapFrom (hl : LessLaws less) (n : Nat) :
    ∀ k l, n ≤ l.length → HeapFrom less l n k →
      HeapFrom less (heapInitAux less n l k) n 0 := by
  intro k
  induction k with
  | zero =>
    intro l hn hf
    exact fun p j _ => hf p j (Nat.zero_le p)
  | succ k ihk =>
    intro l hn hf
    show HeapFrom less (heapInitAux less n (heapDown less l k n) k) n 0
    apply ihk
    · rw [heapDown_length]
      exact hn
    · -- the sift at `k` extends the invariant to parent `k`
      have hsub : SubHeapN less (heapDown less l k n) n k := by
        apply heapDown_subheap less hl l k n hn
        intro p c hp hpk hc hcn
        have : 2 * k + 1 ≤ p := by
          rcases hp.ge_child with h | h
          · exact absurd h hpk
          · exact h
        exact hf p c (by omega) hc hcn
      intro p c hkp hc hcn
      by_cases hdp : Desc k p
      · exact hsub p c hdp hc hcn
      · have hpk : p ≠ k := fun he => hdp (he ▸ Desc.refl k)
        have hcge : 2 * p + 1 ≤ c := by rcases hc with h | h <;> omega
        have hdc : ¬ Desc k c := by
          intro h
          have hck : c ≠ k := by omega
          have hpm := h.parent_mem hck
          rw [parent_of_child hc] at hpm
          exact hdp hpm
        rw [heapDown_outside less _ _ _ p (Or.inl hdp),
            heapDown_outside less _ _ _ c (Or.inl hdc)]
        exact hf p c (by omega) hc hcn

theorem heapInit_isHeap (hl : LessLaws less) (l : List α) :
    IsHeapN less (heapInit less l) l.length := by
  have hf : HeapFrom less l l.length (l.length / 2) := by
    intro p j hp hc hj
    have : 2 * p + 1 ≤ j := by rcases hc with h | h <;> omega
    omega
  have := heapInitAux_heapFrom less hl l.length (l.length / 2) l (Nat.le_refl _) hf
  exact fun p j => this p j (Nat.zero_le p)

theorem heapInitAux_perm (n : Nat) : ∀ k l, n ≤ l.length →
    List.Perm (heapInitAux less n l k) l := by
  intro k
  induction k with
  | zero => exact fun l _ => List.Perm.refl l
  | succ k ihk =>
    intro l hn
    have h1 := ihk (heapDown less l k n) (by rw [heapDown_length]; exact hn)
    exact h1.trans (heapDown_perm less l k n hn)

theorem heapInit_perm (l : List α) : List.Perm (heapInit less l) l :=
  heapInitAux_perm less l.length (l.length / 2) l (Nat.le_refl _)

theorem heapInit_length (l : List α) : (heapInit less l).length = l.length :=
  (heapInit_perm less l).length_eq

/-- Specification of `heap.Pop`: on a non-empty heap it returns the root
(the minimum), and the remainder is a permutation of the rest which is
again a heap. -/
theorem heapPop_spec (hl : LessLaws less) (l : List α) (hne : l ≠ [])
    (hh : IsHeapN less l l.length) :
    (heapPop less l).1 = lgd l 0 ∧
    List.Perm ((heapPop less l).1 :: (heapPop less l).2) l ∧
    (heapPop less l).2.length = l.length - 1 ∧
    IsHeapN less (heapPop less l).2 (l.length - 1) ∧
    (∀ y ∈ (heapPop less l).2, less y (lgd l 0) = false) := by
  have hlen0 : 0 < l.length := List.length_pos.mpr hne
  set n' := l.length - 1 with hn'
  have hn'lt : n' < l.length := by omega
  have hl1len : (lswap l 0 n').length = l.length := by simp
  have hl2len : (heapDown less (lswap l 0 n') 0 n').length = l.length := by
    rw [heapDown_length, hl1len]
  have hx : lgd (heapDown less (lswap l 0 n') 0 n') n' = lgd l 0 := by
    rw [heapDown_outside less _ _ _ n' (Or.inr (Nat.le_refl n')),
        lgd_lswap_right hlen0 hn'lt]
  have hfst : (heapPop less l).1 = lgd l 0 := by
    simp only [heapPop]
    exact hx
  have hsnd : (heapPop less l).2 = (heapDown less (lswap l 0 n') 0 n').take n' := rfl
  -- the sifted prefix is a heap
  have hsub : SubHeapN less (heapDown less (lswap l 0 n') 0 n') n' 0 := by
    apply heapDown_subheap less hl _ 0 n' (by omega)
    intro p c hp hpne hc hcn
    have hpge : 1 ≤ p := by
      rcases hp.ge_child with h | h
      · exact absurd h hpne
      · omega
    have hcge : 2 * p + 1 ≤ c := by rcases hc with h | h <;> omega
    have hplt : p < n' := by omega
    rw [lgd_lswap_other hlen0 hn'lt (by omega) (by omega),
        lgd_lswap_other hlen0 hn'lt (by omega) (by omega)]
    exact hh p c hc (by omega)
  -- the popped element is the minimum
  have hboundpre : ∀ k, Desc 0 k → k < n' →
      less (lgd (lswap l 0 n') k) (lgd l 0) = false := by
    intro k _ hkn
    by_cases hk0 : k = 0
    · subst hk0
      rw [lgd_lswap_left hlen0 hn'lt (by omega)]
      exact root_min less hl hh n' hn'lt
    · rw [lgd_lswap_other hlen0 hn'lt (fun h => hk0 h.symm) (by omega)]
      exact root_min less hl hh k (by omega)
  have hbound := heapDown_bound less (fun x => less x (lgd l 0) = false)
    (lswap l 0 n') 0 n' (by omega) hboundpre
  refine ⟨hfst, ?_, ?_, ?_, ?_⟩
  · -- permutation
    have hdrop : (heapDown less (lswap l 0 n') 0 n').drop n'
        = [(heapPop less l).1] := by
      have h1 : n' < (heapDown less (lswap l 0 n') 0 n').length := by omega
      rw [List.drop_eq_getElem_cons h1]
      have h2 : (heapDown less (lswap l 0 n') 0 n').drop (n' + 1) = [] := by
        apply List.drop_eq_nil_of_le
        omega
      rw [h2, hfst, ← hx, lgd_eq_getElem h1]
    have hsplit : (heapPop less l).2 ++ [(heapPop less l).1]
        = heapDown less (lswap l 0 n') 0 n' := by
      conv_rhs => rw [← List.take_append_drop n' (heapDown less (lswap l 0 n') 0 n')]
      rw [hdrop]
      rfl
    have hperm2 : List.Perm (heapDown less (lswap l 0 n') 0 n') l :=
      (heapDown_perm less _ 0 n' (by omega)).trans (lswap_perm l 0 n' hlen0 hn'lt)
    have hstep1 : List.Perm ((heapPop less l).1 :: (heapPop less l).2)
        ((heapPop less l).2 ++ [(heapPop less l).1]) :=
      (List.perm_append_singleton _ _).symm
    rw [hsplit] at hstep1
    exact hstep1.trans hperm2
  · -- length
    rw [hsnd, List.length_take]
    omega
  · -- heap invariant of the remainder
    intro p c hc hcn
    have hpn : p < n' := by
      have : 2 * p + 1 ≤ c := by rcases hc with h | h <;> omega
      omega
    rw [hsnd, lgd_take hcn, lgd_take hpn]
    exact hsub p c (Desc_zero p) hc hcn
  · -- minimality
    intro y hy
    rw [hsnd] at hy
    rcases List.mem_iff_getElem.mp hy with ⟨i, hi, hig⟩
    have hilen : i < n' := by
      rw [List.length_take] at hi
      omega
    have hyv : y = lgd ((heapDown less (lswap l 0 n') 0 n').take n') i := by
      rw [lgd_eq_getElem hi]
      exact hig.symm
    rw [hyv, lgd_take hilen]
    exact hbound i (Desc_zero i) hilen

theorem heapUp_length : ∀ l j, (heapUp less l j).length = l.length := by
  intro l j
  induction l, j using heapUp.induct less with
  | case1 l => rw [heapUp, dif_pos rfl]
  | case2 l j h1 h2 ih =>
    rw [heapUp, dif_neg h1, if_pos h2, ih]
    simp
  | case3 l j h1 h2 =>
    rw [heapUp, dif_neg h1, if_neg h2]

theorem heapUp_perm : ∀ l j, j < l.length →
    List.Perm (heapUp less l j) l := by
  intro l j
  induction l, j using heapUp.induct less with
  | case1 l =>
    intro _
    rw [heapUp, dif_pos rfl]
  | case2 l j h1 h2 ih =>
    intro hj
    rw [heapUp, dif_neg h1, if_pos h2]
    have hi : (j - 1) / 2 < l.length := by omega
    have hperm := lswap_perm l ((j - 1) / 2) j hi hj
    exact (ih (by simpa using hi)).trans hperm
  | case3 l j h1 h2 =>
    intro _
    rw [heapUp, dif_neg h1, if_neg h2]

/-- Precondition of the sift-up loop: every heap edge holds except possibly
the one into `j`, and the children of `j` are already dominated by `j`'s
parent. -/
def UpPre (l : List α) (n j : Nat) : Prop :=
  (∀ p c, IsChild c p → c < n → c ≠ j → less (lgd l c) (lgd l p) = false) ∧
  (∀ c, IsChild c j → c < n → j ≠ 0 →
    less (lgd l c) (lgd l ((j - 1) / 2)) = false)

theorem heapUp_isHeap (hl : LessLaws less) : ∀ l j, j < l.length →
    UpPre less l l.length j → IsHeapN less (heapUp less l j) l.length := by
  intro l j
  induction l, j using heapUp.induct less with
  | case1 l =>
    intro hj hpre
    rw [heapUp, dif_pos rfl]
    intro p c hc hcn
    have : 2 * p + 1 ≤ c := by rcases hc with h | h <;> omega
    exact hpre.1 p c hc hcn (by omega)
  | case2 l j h1 h2 ih =>
    intro hj hpre
    rw [heapUp, dif_neg h1, if_pos h2]
    have hij : (j - 1) / 2 < j := by omega
    have hi : (j - 1) / 2 < l.length := by omega
    have hchild_j : IsChild j ((j - 1) / 2) := isChild_parent h1
    -- the swapped list still satisfies the up-sift precondition, at the parent
    have hpre' : UpPre less (lswap l ((j - 1) / 2) j) l.length ((j - 1) / 2) := by
      constructor
      · intro p c hc hcn hcne
        by_cases hcj : c = j
        · subst hcj
          have hpc : p = (c - 1) / 2 := (parent_of_child hc).symm
          rw [hpc, lgd_lswap_right hi hj, lgd_lswap_left hi hj (by omega)]
          exact hl.asymm h2
        · have hc_other : lgd (lswap l ((j - 1) / 2) j) c = lgd l c :=
            lgd_lswap_other hi hj (fun h => hcne h.symm) (fun h => hcj h.symm)
          by_cases hpi : p = (j - 1) / 2
          · subst hpi
            rw [hc_other, lgd_lswap_left hi hj (by omega)]
            cases hcl : less (lgd l c) (lgd l j)
            · rfl
            · have h3 := hl.2.1 _ _ _ hcl h2
              have h4 := hpre.1 _ c hc hcn hcj
              rw [h4] at h3
              cases h3
          · by_cases hpj : p = j
            · subst hpj
              rw [hc_other, lgd_lswap_right hi hj]
              exact hpre.2 c hc hcn h1
            · rw [hc_other,
                  lgd_lswap_other hi hj (fun h => hpi h.symm) (fun h => hpj h.symm)]
              exact hpre.1 p c hc hcn hcj
      · intro c hc hcn hine
        have hpi_lt : ((j - 1) / 2 - 1) / 2 < (j - 1) / 2 := by omega
        have hpinej : ((j - 1) / 2 - 1) / 2 ≠ j := by omega
        have hpinei : ((j - 1) / 2 - 1) / 2 ≠ (j - 1) / 2 := by omega
        have hpp : lgd (lswap l ((j - 1) / 2) j) (((j - 1) / 2 - 1) / 2)
            = lgd l (((j - 1) / 2 - 1) / 2) :=
          lgd_lswap_other hi hj (Ne.symm hpinei) (Ne.symm hpinej)
        have hedge_pi : less (lgd l ((j - 1) / 2)) (lgd l (((j - 1) / 2 - 1) / 2)) = false := by
          apply hpre.1
          · exact isChild_parent hine
          · exact hi
          · omega
        by_cases hcj : c = j
        · subst hcj
          rw [hpp, lgd_lswap_right hi hj]
          exact hedge_pi
        · have hcge : 2 * ((j - 1) / 2) + 1 ≤ c := by rcases hc with h | h <;> omega
          rw [hpp, lgd_lswap_other hi hj (by omega) (fun h => hcj h.symm)]
          have hedge_c : less (lgd l c) (lgd l ((j - 1) / 2)) = false :=
            hpre.1 _ c hc hcn hcj
          exact hl.2.2 _ _ _ hedge_pi hedge_c
    have hlen : (lswap l ((j - 1) / 2) j).length = l.length := by simp
    have hres := ih (by rw [hlen]; exact hi) (by rw [hlen]; exact hpre')
    rw [hlen] at hres
    exact hres
  | case3 l j h1 h2 =>
    intro hj hpre
    rw [heapUp, dif_neg h1, if_neg h2]
    intro p c hc hcn
    by_cases hcj : c = j
    · subst hcj
      have hpc : p = (c - 1) / 2 := (parent_of_child hc).symm
      subst hpc
      cases hcl : less (lgd l c) (lgd l ((c - 1) / 2))
      · rfl
      · exact absurd hcl h2
    · exact hpre.1 p c hc hcn hcj

/-- Specification of `heap.Push`: the result is a permutation of the input
with the new element, and is again a heap. -/
theorem heapPush_spec (hl : LessLaws less) (l : List α) (x : α)
    (hh : IsHeapN less l l.length) :
    List.Perm (heapPush less l x) (x :: l) ∧
    IsHeapN less (heapPush less l x) (l.length + 1) := by
  constructor
  · have h1 := heapUp_perm less (l ++ [x]) l.length (by simp)
    exact h1.trans (List.perm_append_singleton _ _)
  · have hpre : UpPre less (l ++ [x]) (l ++ [x]).length l.length := by
      constructor
      · intro p c hc hcn hcne
        have hclen : c < l.length := by
          simp only [List.length_append, List.length_cons, List.length_nil] at hcn
          omega
        have hplen : p < l.length := by
          have : 2 * p + 1 ≤ c := by rcases hc with h | h <;> omega
          omega
        rw [lgd_append_left hclen, lgd_append_left hplen]
        exact hh p c hc hclen
      · intro c hc hcn _
        have : 2 * l.length + 1 ≤ c := by rcases hc with h | h <;> omega
        simp only [List.length_append, List.length_cons, List.length_nil] at hcn
        omega
    have := heapUp_isHeap less hl (l ++ [x]) l.length (by simp) hpre
    have hlen : (l ++ [x]).length = l.length + 1 := by simp
    rw [hlen] at this
    exact this

/-- `heap.Pop` returns a permutation split of a non-empty slice (no heap
invariant needed). -/
theorem heapPop_perm (l : List α) (hne : l ≠ []) :
    List.Perm ((heapPop less l).1 :: (heapPop less l).2) l := by
  have hlen0 : 0 < l.length := List.length_pos.mpr hne
  set n' := l.length - 1 with hn'
  have hn'lt : n' < l.length := by omega
  have hl2len : (heapDown less (lswap l 0 n') 0 n').length = l.length := by
    rw [heapDown_length]
    simp
  have hx : lgd (heapDown less (lswap l 0 n') 0 n') n' = lgd l 0 := by
    rw [heapDown_outside less _ _ _ n' (Or.inr (Nat.le_refl n')),
        lgd_lswap_right hlen0 hn'lt]
  have hfst : (heapPop less l).1 = lgd l 0 := by
    simp only [heapPop]
    exact hx
  have hdrop : (heapDown less (lswap l 0 n') 0 n').drop n' = [(heapPop less l).1] := by
    have h1 : n' < (heapDown less (lswap l 0 n') 0 n').length := by omega
    rw [List.drop_eq_getElem_cons h1]
    have h2 : (heapDown less (lswap l 0 n') 0 n').drop (n' + 1) = [] := by
      apply List.drop_eq_nil_of_le
      omega
    rw [h2, hfst, ← hx, lgd_eq_getElem h1]
  have hsplit : (heapPop less l).2 ++ [(heapPop less l).1]
      = heapDown less (lswap l 0 n') 0 n' := by
    conv_rhs => rw [← List.take_append_drop n' (heapDown less (lswap l 0 n') 0 n')]
    rw [hdrop]
    rfl
  have hl1len : (lswap l 0 n').length = l.length := by simp
  have hperm2 : List.Perm (heapDown less (lswap l 0 n') 0 n') l :=
    (heapDown_perm less _ 0 n' (by omega)).trans (lswap_perm l 0 n' hlen0 hn'lt)
  have hstep1 : List.Perm ((heapPop less l).1 :: (heapPop less l).2)
      ((heapPop less l).2 ++ [(heapPop less l).1]) :=
    (List.perm_append_singleton _ _).symm
  rw [hsplit] at hstep1
  exact hstep1.trans hperm2

/-- `heap.Push` is a permutation (no heap invariant needed). -/
theorem heapPush_perm (l : List α) (x : α) :
    List.Perm (heapPush less l x) (x :: l) := by
  have h1 := heapUp_perm less (l ++ [x]) l.length (by simp)
  exact h1.trans (List.perm_append_singleton _ _)

end Heap

/-! ## The heap comparator's order laws -/

/-- The (key, mod-revision) pair a watch event is ordered on. -/
def evKM (e : Event) : Bytes × Int := (e.kv.key, e.kv.modRevision)

/-- Strict lexicographic order on (key, mod-revision) pairs. -/
def kmLtb (a b : Bytes × Int) : Bool :=
  decide (bytesCompare a.1 b.1 = .lt ∨ (bytesCompare a.1 b.1 = .eq ∧ a.2 < b.2))

/-- The rank `watchResponseHeap.Less` compares by: the first event's
(key, mod-revision), with event-less responses ranked lowest. -/
def wrRank (w : WatchResponse) : Option (Bytes × Int) :=
  match w.events with
  | [] => none
  | e :: _ => some (evKM e)

/-- Strict order on ranks. -/
def rankLtb : Option (Bytes × Int) → Option (Bytes × Int) → Bool
  | none, none => false
  | none, some _ => true
  | some _, none => false
  | some a, some b => kmLtb a b

theorem wrLess_eq_rank (a b : WatchResponse) :
    wrLess a b = rankLtb (wrRank a) (wrRank b) := by
  unfold wrLess wrRank rankLtb kmLtb evKM
  cases a.events with
  | nil =>
    cases b.events with
    | nil => rfl
    | cons eb tb => rfl
  | cons ea ta =>
    cases b.events with
    | nil => rfl
    | cons eb tb =>
      cases h : bytesCompare ea.kv.key eb.kv.key <;> simp [h]

theorem bytesCompare_gt_iff {a b : Bytes} :
    bytesCompare a b = .gt ↔ bytesCompare b a = .lt := by
  rw [bytesCompare_swap a b]
  cases bytesCompare b a <;> simp [Ordering.swap]

theorem kmLtb_iff {a b : Bytes × Int} : kmLtb a b = true ↔
    (bytesCompare a.1 b.1 = .lt ∨ (a.1 = b.1 ∧ a.2 < b.2)) := by
  unfold kmLtb
  rw [decide_eq_true_iff]
  constructor
  · rintro (h | ⟨h, hm⟩)
    · exact Or.inl h
    · exact Or.inr ⟨bytesCompare_eq_iff.mp h, hm⟩
  · rintro (h | ⟨h, hm⟩)
    · exact Or.inl h
    · exact Or.inr ⟨bytesCompare_eq_iff.mpr h, hm⟩

theorem kmLtb_irrefl (a : Bytes × Int) : kmLtb a a = false := by
  unfold kmLtb
  rw [bytesCompare_refl]
  simp

theorem kmLtb_trans {a b c : Bytes × Int} (h1 : kmLtb a b = true)
    (h2 : kmLtb b c = true) : kmLtb a c = true := by
  rw [kmLtb_iff] at h1 h2 ⊢
  rcases h1 with h1 | ⟨e1, m1⟩ <;> rcases h2 with h2 | ⟨e2, m2⟩
  · exact Or.inl (bytesCompare_lt_trans h1 h2)
  · exact Or.inl (by rw [← e2]; exact h1)
  · exact Or.inl (by rw [e1]; exact h2)
  · exact Or.inr ⟨e1.trans e2, by omega⟩

theorem kmLtb_total {a b : Bytes × Int} (h : kmLtb a b = false) :
    kmLtb b a = true ∨ a = b := by
  cases hab : bytesCompare a.1 b.1
  · have := kmLtb_iff.mpr (Or.inl hab)
    rw [h] at this
    cases this
  · have he := bytesCompare_eq_iff.mp hab
    by_cases hm : b.2 < a.2
    · exact Or.inl (kmLtb_iff.mpr (Or.inr ⟨he.symm, hm⟩))
    · right
      have hm2 : ¬ a.2 < b.2 := by
        intro hlt
        have := kmLtb_iff.mpr (Or.inr ⟨he, hlt⟩)
        rw [h] at this
        cases this
      exact Prod.ext he (by omega)
  · exact Or.inl (kmLtb_iff.mpr (Or.inl (bytesCompare_gt_iff.mp hab)))

theorem rankLtb_irrefl (r : Option (Bytes × Int)) : rankLtb r r = false := by
  cases r
  · rfl
  · exact kmLtb_irrefl _

theorem rankLtb_trans {x y z : Option (Bytes × Int)} (h1 : rankLtb x y = true)
    (h2 : rankLtb y z = true) : rankLtb x z = true := by
  cases x <;> cases y <;> cases z <;>
    simp only [rankLtb] at h1 h2 ⊢ <;>
    first
      | rfl
      | exact h1
      | exact h2
      | cases h1
      | cases h2
      | exact kmLtb_trans h1 h2

theorem rankLtb_le_trans {x y z : Option (Bytes × Int)} (h1 : rankLtb y x = false)
    (h2 : rankLtb z y = false) : rankLtb z x = false := by
  cases x <;> cases y <;> cases z <;>
    simp only [rankLtb] at h1 h2 ⊢ <;>
    try first | rfl | exact h1 | exact h2 | cases h1 | cases h2
  rename_i a b c
  cases hca : kmLtb c a
  · rfl
  · exfalso
    rcases kmLtb_total h1 with hab | hab <;> rcases kmLtb_total h2 with hbc | hbc
    · have h3 := kmLtb_trans hab hbc
      have h4 := kmLtb_trans h3 hca
      rw [kmLtb_irrefl] at h4
      cases h4
    · subst hbc
      simp_all [kmLtb_irrefl]
    · subst hab
      simp_all [kmLtb_irrefl]
    · subst hab
      subst hbc
      simp_all [kmLtb_irrefl]

/-- Termination measure of the Apply merge loop: total queued events plus
heap size. -/
def wrMeasure (hp : List WatchResponse) : Nat :=
  (hp.map (fun w => w.events.length)).sum + hp.length

theorem wrMeasure_perm {hp1 hp2 : List WatchResponse} (h : List.Perm hp1 hp2) :
    wrMeasure hp1 = wrMeasure hp2 := by
  unfold wrMeasure
  rw [(h.map _).sum_eq, h.length_eq]

theorem wrMeasure_cons (w : WatchResponse) (hp : List WatchResponse) :
    wrMeasure (w :: hp) = w.events.length + wrMeasure hp + 1 := by
  unfold wrMeasure
  simp
  omega

theorem heapPop_wrMeasure {hp : List WatchResponse} (h : hp ≠ []) :
    wrMeasure (heapPop wrLess hp).2 + (heapPop wrLess hp).1.events.length + 1
      = wrMeasure hp := by
  have hperm := heapPop_perm wrLess hp h
  have h1 := wrMeasure_perm hperm
  rw [wrMeasure_cons] at h1
  omega

theorem heapPush_wrMeasure (hp : List WatchResponse) (x : WatchResponse) :
    wrMeasure (heapPush wrLess hp x) = x.events.length + wrMeasure hp + 1 :=
  (wrMeasure_perm (heapPush_perm wrLess hp x)).trans (wrMeasure_cons x hp)

/-- The order laws of `watchResponseHeap.Less`. -/
theorem wrLess_laws : LessLaws wrLess := by
  refine ⟨?_, ?_, ?_⟩
  · intro a
    rw [wrLess_eq_rank]
    exact rankLtb_irrefl _
  · intro a b c h1 h2
    rw [wrLess_eq_rank] at h1 h2 ⊢
    exact rankLtb_trans h1 h2
  · intro a b c h1 h2
    rw [wrLess_eq_rank] at h1 h2 ⊢
    exact rankLtb_le_trans h1 h2

/-! ## The Apply merge walk -/

/-- One step of the Apply merge walk (key_space.go): find the index of the
event's key in `current` (stepping past it when found), move that key range
onto `next`, and patch the tail of `next` with the event. -/
def mergeStep {V : Type} (decode : KeyValueDecoder V) (next current : KeyValues V)
    (e : Event) : KeyValues V × KeyValues V :=
  let sf := KeyValues.search current e.kv.key
  let ind := if sf.2 then sf.1 + 1 else sf.1
  ((updateKeyValuesTail decode (next ++ current.take ind) e).1, current.drop ind)

/-- The merge loop of `KeySpace.Apply` (key_space.go): repeatedly pop the
heap-minimal response, apply its first event via `mergeStep`, and push the
response's remaining events back; responses with no events left are
dropped.  When the heap drains, the unconsumed tail of `current` is
appended. -/
def mergeLoop {V : Type} (decode : KeyValueDecoder V) (hp : List WatchResponse)
    (next current : KeyValues V) : KeyValues V :=
  if hhp : hp = [] then next ++ current
  else
    match hev : (heapPop wrLess hp).1.events with
    | [] => mergeLoop decode (heapPop wrLess hp).2 next current
    | e :: rest =>
      let st := mergeStep decode next current e
      mergeLoop decode
        (heapPush wrLess (heapPop wrLess hp).2
          { (heapPop wrLess hp).1 with events := rest })
        st.1 st.2
termination_by wrMeasure hp
decreasing_by
  · have h1 := heapPop_wrMeasure hhp
    omega
  · have h1 := heapPop_wrMeasure hhp
    rw [hev] at h1
    simp only [List.length_cons] at h1
    simp only [heapPush_wrMeasure]
    omega

/-! ## The reference semantics of a batch of events

Following the spec's words: the new key list is obtained by "taking the
prior sorted key list and applying every event of every response one at a
time in ascending (key, modification-revision) order (inserting, replacing,
or deleting at the event's key)". -/

/-- Reference semantics of one event against a key-ordered list: insert,
replace or delete at the event's key; a failed decode drops the key. -/
def applyOne {V : Type} (decode : KeyValueDecoder V) : KeyValues V → Event → KeyValues V
  | [], e =>
    match e.type, decode e.kv with
    | .put, some v => [⟨e.kv, v⟩]
    | _, _ => []
  | kv :: rest, e =>
    match bytesCompare kv.raw.key e.kv.key with
    | .lt => kv :: applyOne decode rest e
    | .eq =>
      match e.type, decode e.kv with
      | .put, some v => ⟨e.kv, v⟩ :: rest
      | _, _ => rest
    | .gt =>
      match e.type, decode e.kv with
      | .put, some v => ⟨e.kv, v⟩ :: kv :: rest
      | _, _ => kv :: rest

/-- Reference semantics of a list of events, applied in order. -/
def applyEvents {V : Type} (decode : KeyValueDecoder V) (kvs : KeyValues V)
    (evs : List Event) : KeyValues V :=
  evs.foldl (applyOne decode) kvs

/-- Strict key order between decoded entries. -/
def KeyLt {V : Type} (a b : KeyValue V) : Prop :=
  bytesCompare a.raw.key b.raw.key = .lt

/-- The KeySpace invariant: entries strictly ascending by key. -/
def kvsSorted {V : Type} (kvs : KeyValues V) : Prop :=
  List.Pairwise KeyLt kvs

/-- Strict (key, mod-revision) order between events. -/
def evLt (a b : Event) : Prop := kmLtb (evKM a) (evKM b) = true

/-- Events strictly ascending on (key, mod-revision). -/
def evsSorted (evs : List Event) : Prop := List.Pairwise evLt evs

/-- All (key, mod-revision) pairs pairwise distinct. -/
def evsDistinct (evs : List Event) : Prop :=
  List.Pairwise (fun a b => evKM a ≠ evKM b) evs

/-! ### Byte-order helper lemmas -/

theorem bytesCompare_lt_of_lt_of_eq {a b c : Bytes} (h1 : bytesCompare a b = .lt)
    (h2 : b = c) : bytesCompare a c = .lt := h2 ▸ h1

theorem bytesCompare_ne_gt_trans {a b c : Bytes} (h1 : bytesCompare a b ≠ .gt)
    (h2 : bytesCompare b c ≠ .gt) : bytesCompare a c ≠ .gt := by
  cases hab : bytesCompare a b
  · cases hbc : bytesCompare b c
    · rw [bytesCompare_lt_trans hab hbc]
      intro h
      cases h
    · rw [bytesCompare_lt_of_lt_of_eq hab (bytesCompare_eq_iff.mp hbc)]
      intro h
      cases h
    · exact absurd hbc h2
  · have he := bytesCompare_eq_iff.mp hab
    rw [he]
    exact h2
  · exact absurd hab h1

theorem bytesCompare_lt_of_lt_of_ne_gt {a b c : Bytes} (h1 : bytesCompare a b = .lt)
    (h2 : bytesCompare b c ≠ .gt) : bytesCompare a c = .lt := by
  cases hbc : bytesCompare b c
  · exact bytesCompare_lt_trans h1 hbc
  · exact bytesCompare_lt_of_lt_of_eq h1 (bytesCompare_eq_iff.mp hbc)
  · exact absurd hbc h2


/-! ### Search lemmas -/

theorem search_nil {V : Type} (k : Bytes) :
    KeyValues.search ([] : KeyValues V) k = (0, false) := rfl

theorem search_cons_lt {V : Type} {kv : KeyValue V} {rest : KeyValues V} {k : Bytes}
    (h : bytesCompare kv.raw.key k = .lt) :
    KeyValues.search (kv :: rest) k
      = ((KeyValues.search rest k).1 + 1, (KeyValues.search rest k).2) := by
  rcases hs : KeyValues.search rest k with ⟨i, f⟩
  conv_lhs => unfold KeyValues.search
  rw [h, hs]

theorem search_cons_eq {V : Type} {kv : KeyValue V} {rest : KeyValues V} {k : Bytes}
    (h : bytesCompare kv.raw.key k = .eq) :
    KeyValues.search (kv :: rest) k = (0, true) := by
  conv_lhs => unfold KeyValues.search
  rw [h]

theorem search_cons_gt {V : Type} {kv : KeyValue V} {rest : KeyValues V} {k : Bytes}
    (h : bytesCompare kv.raw.key k = .gt) :
    KeyValues.search (kv :: rest) k = (0, false) := by
  conv_lhs => unfold KeyValues.search
  rw [h]

/-- Every entry copied by the merge step (the searched range) has key at
most the event's key. -/
theorem search_take_bound {V : Type} : ∀ (current : KeyValues V) (k : Bytes),
    ∀ x ∈ current.take (if (KeyValues.search current k).2 then
        (KeyValues.search current k).1 + 1 else (KeyValues.search current k).1),
      bytesCompare x.raw.key k ≠ .gt := by
  intro current
  induction current with
  | nil =>
    intro k x hx
    simp at hx
  | cons kv rest ih =>
    intro k x hx
    cases hc : bytesCompare kv.raw.key k
    · rw [search_cons_lt hc] at hx
      have hsucc : (if (KeyValues.search rest k).2 then (KeyValues.search rest k).1 + 1 + 1
          else (KeyValues.search rest k).1 + 1)
          = (if (KeyValues.search rest k).2 then (KeyValues.search rest k).1 + 1
              else (KeyValues.search rest k).1) + 1 := by
        split <;> rfl
      rw [hsucc, List.take_succ_cons] at hx
      rcases List.mem_cons.mp hx with hx | hx
      · subst hx
        rw [hc]
        intro h
        cases h
      · exact ih k x hx
    · rw [search_cons_eq hc] at hx
      simp only [if_pos] at hx
      rw [List.take_succ_cons, List.take_zero] at hx
      rcases List.mem_cons.mp hx with hx | hx
      · subst hx
        rw [hc]
        intro h
        cases h
      · simp at hx
    · rw [search_cons_gt hc] at hx
      simp at hx

/-! ### updateKeyValuesTail lemmas -/

theorem tailFound_nil {V : Type} (k : Bytes) :
    tailFound ([] : KeyValues V) k = false := rfl

theorem tailFound_cons_cons {V : Type} (kv r : KeyValue V) (rs : KeyValues V) (k : Bytes) :
    tailFound (kv :: r :: rs) k = tailFound (r :: rs) k := by
  unfold tailFound
  rw [List.getLast?_cons_cons]

theorem tailFound_singleton {V : Type} (kv : KeyValue V) (k : Bytes) :
    tailFound [kv] k = decide (bytesCompare kv.raw.key k = .eq) := by
  unfold tailFound
  rfl

theorem tailFound_concat {V : Type} (l : KeyValues V) (x : KeyValue V) (k : Bytes) :
    tailFound (l ++ [x]) k = decide (bytesCompare x.raw.key k = .eq) := by
  unfold tailFound
  rw [List.getLast?_concat]

theorem updateTail_cons {V : Type} (decode : KeyValueDecoder V) (kv : KeyValue V)
    {rest : KeyValues V} (e : Event)
    (h : rest ≠ [] ∨ bytesCompare kv.raw.key e.kv.key ≠ .eq) :
    (updateKeyValuesTail decode (kv :: rest) e).1
      = kv :: (updateKeyValuesTail decode rest e).1 := by
  obtain ⟨ty, ekv⟩ := e
  cases rest with
  | nil =>
    have hne : bytesCompare kv.raw.key ekv.key ≠ .eq := by
      rcases h with h | h
      · exact absurd rfl h
      · exact h
    cases ty <;> cases hd : decode ekv <;>
      simp [updateKeyValuesTail, appendKeyValue, tailFound_singleton, tailFound_nil,
        hd, hne]
  | cons r rs =>
    have hdl : (kv :: r :: rs).dropLast = kv :: (r :: rs).dropLast :=
      List.dropLast_cons_of_ne_nil (List.cons_ne_nil r rs)
    cases ty <;> cases hd : decode ekv <;>
      simp only [updateKeyValuesTail, appendKeyValue, tailFound_cons_cons, hd] <;>
      split <;> simp [hdl]

/-- The entries produced by `updateKeyValuesTail` come from the input or
carry the event's key. -/
theorem updateTail_keys {V : Type} (decode : KeyValueDecoder V) (l : KeyValues V)
    (e : Event) : ∀ x ∈ (updateKeyValuesTail decode l e).1,
      x ∈ l ∨ x.raw.key = e.kv.key := by
  obtain ⟨ty, ekv⟩ := e
  intro x hx
  cases ty
  · -- put
    unfold updateKeyValuesTail appendKeyValue at hx
    rcases hd : decode ekv with _ | v <;> rw [hd] at hx <;> simp only [] at hx
    · split at hx
      · exact Or.inl (List.mem_of_mem_dropLast hx)
      · exact Or.inl hx
    · rcases List.mem_append.mp hx with hx | hx
      · split at hx
        · exact Or.inl (List.mem_of_mem_dropLast hx)
        · exact Or.inl hx
      · simp at hx
        subst hx
        exact Or.inr rfl
  · -- delete
    unfold updateKeyValuesTail at hx
    simp only [] at hx
    split at hx
    · exact Or.inl (List.mem_of_mem_dropLast hx)
    · exact Or.inl hx

/-! ### Normal forms: the local effect of one event -/

/-- The entries an event contributes at its key: one decoded entry for a
successful PUT, nothing otherwise. -/
def evEffect {V : Type} (decode : KeyValueDecoder V) (e : Event) : KeyValues V :=
  match e.type, decode e.kv with
  | .put, some v => [⟨e.kv, v⟩]
  | _, _ => []

theorem evEffect_keys {V : Type} (decode : KeyValueDecoder V) (e : Event) :
    ∀ x ∈ evEffect decode e, x.raw.key = e.kv.key := by
  intro x hx
  unfold evEffect at hx
  split at hx
  · simp at hx
    subst hx
    rfl
  · simp at hx

theorem evEffect_sorted {V : Type} (decode : KeyValueDecoder V) (e : Event) :
    kvsSorted (evEffect decode e) := by
  unfold evEffect
  split
  · exact List.pairwise_singleton _ _
  · exact List.Pairwise.nil

theorem applyOne_nil {V : Type} (decode : KeyValueDecoder V) (e : Event) :
    applyOne decode [] e = evEffect decode e := rfl

theorem applyOne_cons_lt {V : Type} (decode : KeyValueDecoder V) {kv : KeyValue V}
    {rest : KeyValues V} {e : Event} (h : bytesCompare kv.raw.key e.kv.key = .lt) :
    applyOne decode (kv :: rest) e = kv :: applyOne decode rest e := by
  conv_lhs => unfold applyOne
  rw [h]

theorem applyOne_cons_eq {V : Type} (decode : KeyValueDecoder V) {kv : KeyValue V}
    {rest : KeyValues V} {e : Event} (h : bytesCompare kv.raw.key e.kv.key = .eq) :
    applyOne decode (kv :: rest) e = evEffect decode e ++ rest := by
  conv_lhs => unfold applyOne
  rw [h]
  unfold evEffect
  obtain ⟨ty, ekv⟩ := e
  cases ty <;> cases hd : decode ekv <;> simp [hd]

theorem applyOne_cons_gt {V : Type} (decode : KeyValueDecoder V) {kv : KeyValue V}
    {rest : KeyValues V} {e : Event} (h : bytesCompare kv.raw.key e.kv.key = .gt) :
    applyOne decode (kv :: rest) e = evEffect decode e ++ kv :: rest := by
  conv_lhs => unfold applyOne
  rw [h]
  unfold evEffect
  obtain ⟨ty, ekv⟩ := e
  cases ty <;> cases hd : decode ekv <;> simp [hd]

theorem updateTail_found {V : Type} (decode : KeyValueDecoder V) {l : KeyValues V}
    {e : Event} (h : tailFound l e.kv.key = true) :
    (updateKeyValuesTail decode l e).1 = l.dropLast ++ evEffect decode e := by
  unfold updateKeyValuesTail appendKeyValue evEffect
  obtain ⟨ty, ekv⟩ := e
  simp only [] at h
  cases ty <;> cases hd : decode ekv <;> simp [h, hd]

theorem updateTail_not_found {V : Type} (decode : KeyValueDecoder V) {l : KeyValues V}
    {e : Event} (h : tailFound l e.kv.key = false) :
    (updateKeyValuesTail decode l e).1 = l ++ evEffect decode e := by
  unfold updateKeyValuesTail appendKeyValue evEffect
  obtain ⟨ty, ekv⟩ := e
  simp only [] at h
  cases ty <;> cases hd : decode ekv <;> simp [h, hd]

/-- `applyOne` only yields entries of the input or entries at the event's
key. -/
theorem applyOne_keys {V : Type} (decode : KeyValueDecoder V) :
    ∀ (l : KeyValues V) (e : Event), ∀ x ∈ applyOne decode l e,
      x ∈ l ∨ x.raw.key = e.kv.key := by
  intro l
  induction l with
  | nil =>
    intro e x hx
    rw [applyOne_nil] at hx
    exact Or.inr (evEffect_keys decode e x hx)
  | cons kv rest ih =>
    intro e x hx
    cases hc : bytesCompare kv.raw.key e.kv.key
    · rw [applyOne_cons_lt decode hc] at hx
      rcases List.mem_cons.mp hx with hx | hx
      · exact Or.inl (hx ▸ List.mem_cons_self kv rest)
      · rcases ih e x hx with h | h
        · exact Or.inl (List.mem_cons_of_mem kv h)
        · exact Or.inr h
    · rw [applyOne_cons_eq decode hc] at hx
      rcases List.mem_append.mp hx with hx | hx
      · exact Or.inr (evEffect_keys decode e x hx)
      · exact Or.inl (List.mem_cons_of_mem kv hx)
    · rw [applyOne_cons_gt decode hc] at hx
      rcases List.mem_append.mp hx with hx | hx
      · exact Or.inr (evEffect_keys decode e x hx)
      · exact Or.inl hx

/-- `applyOne` preserves strict key sortedness. -/
theorem applyOne_sorted {V : Type} (decode : KeyValueDecoder V) :
    ∀ (l : KeyValues V) (e : Event), kvsSorted l → kvsSorted (applyOne decode l e) := by
  intro l
  induction l with
  | nil =>
    intro e _
    rw [applyOne_nil]
    exact evEffect_sorted decode e
  | cons kv rest ih =>
    intro e hs
    have hs' : kvsSorted rest := (List.pairwise_cons.mp hs).2
    have hkv : ∀ y ∈ rest, KeyLt kv y := (List.pairwise_cons.mp hs).1
    cases hc : bytesCompare kv.raw.key e.kv.key
    · rw [applyOne_cons_lt decode hc]
      refine List.pairwise_cons.mpr ⟨?_, ih e hs'⟩
      intro y hy
      rcases applyOne_keys decode rest e y hy with h | h
      · exact hkv y h
      · unfold KeyLt
        rw [h]
        exact hc
    · rw [applyOne_cons_eq decode hc]
      refine List.pairwise_append.mpr ⟨evEffect_sorted decode e, hs', ?_⟩
      intro a ha b hb
      have hak := evEffect_keys decode e a ha
      unfold KeyLt
      rw [hak, ← bytesCompare_eq_iff.mp hc]
      exact hkv b hb
    · rw [applyOne_cons_gt decode hc]
      refine List.pairwise_append.mpr ⟨evEffect_sorted decode e, hs, ?_⟩
      intro a ha b hb
      have hak := evEffect_keys decode e a ha
      have helt : bytesCompare e.kv.key kv.raw.key = .lt := bytesCompare_gt_iff.mp hc
      unfold KeyLt
      rw [hak]
      rcases List.mem_cons.mp hb with hb | hb
      · rw [hb]
        exact helt
      · exact bytesCompare_lt_trans helt (hkv b hb)

theorem applyOne_append_low {V : Type} (decode : KeyValueDecoder V) :
    ∀ (pre rest : KeyValues V) (e : Event),
    (∀ x ∈ pre, bytesCompare x.raw.key e.kv.key = .lt) →
    applyOne decode (pre ++ rest) e = pre ++ applyOne decode rest e := by
  intro pre
  induction pre with
  | nil =>
    intro rest e _
    simp
  | cons kv p ih =>
    intro rest e hl
    rw [List.cons_append, applyOne_cons_lt decode (hl kv (List.mem_cons_self kv p)),
        ih rest e (fun x hx => hl x (List.mem_cons_of_mem _ hx)), List.cons_append]

/-- The tail patch performed by the merge step coincides with the reference
`applyOne` when every entry already moved to `next` is at or below the
event's key and everything still to come is above it. -/
theorem updateTail_applyOne {V : Type} (decode : KeyValueDecoder V) :
    ∀ (next high : KeyValues V) (e : Event),
    kvsSorted next →
    (∀ x ∈ next, bytesCompare x.raw.key e.kv.key ≠ .gt) →
    (∀ y ∈ high, bytesCompare y.raw.key e.kv.key = .gt) →
    (updateKeyValuesTail decode next e).1 ++ high
      = applyOne decode (next ++ high) e := by
  intro next
  induction next with
  | nil =>
    intro high e _ _ hh
    rw [updateTail_not_found decode (tailFound_nil _)]
    cases high with
    | nil => simp [applyOne_nil, evEffect]
    | cons y ys =>
      rw [List.nil_append, List.nil_append,
        applyOne_cons_gt decode (hh y (List.mem_cons_self y ys))]
  | cons kv rest ih =>
    intro high e hs hb hh
    have hkv := hb kv (List.mem_cons_self kv rest)
    have hs' : kvsSorted rest := (List.pairwise_cons.mp hs).2
    have hcross := (List.pairwise_cons.mp hs).1
    cases hc : bytesCompare kv.raw.key e.kv.key
    · rw [updateTail_cons decode kv e (Or.inr (by rw [hc]; intro h; cases h)),
        List.cons_append, List.cons_append,
        applyOne_cons_lt decode hc,
        ih high e hs' (fun x hx => hb x (List.mem_cons_of_mem _ hx)) hh]
    · have hrest : rest = [] := by
        cases rest with
        | nil => rfl
        | cons r rs =>
          exfalso
          have h1 : KeyLt kv r := hcross r (List.mem_cons_self r rs)
          have h2 := hb r (List.mem_cons_of_mem _ (List.mem_cons_self r rs))
          have he := bytesCompare_eq_iff.mp hc
          exact h2 (by rw [← he]; exact bytesCompare_gt_iff.mpr h1)
      subst hrest
      have htf : tailFound [kv] e.kv.key = true := by
        rw [tailFound_singleton]
        simp [hc]
      rw [updateTail_found decode htf]
      have hdl : ([kv] : KeyValues V).dropLast = [] := rfl
      rw [hdl, List.nil_append, List.singleton_append,
        applyOne_cons_eq decode hc]
    · exact absurd hc hkv

/-- The merge step of Apply equals the reference `applyOne` on the
concatenated state. -/
theorem mergeStep_eq {V : Type} (decode : KeyValueDecoder V) :
    ∀ (current next : KeyValues V) (e : Event),
    kvsSorted next → kvsSorted current →
    (∀ x ∈ next, ∀ y ∈ current, KeyLt x y) →
    (∀ x ∈ next, bytesCompare x.raw.key e.kv.key ≠ .gt) →
    (mergeStep decode next current e).1 ++ (mergeStep decode next current e).2
      = applyOne decode (next ++ current) e := by
  intro current
  induction current with
  | nil =>
    intro next e hsn _ _ hb
    unfold mergeStep
    rw [search_nil]
    simp only [List.take_nil, List.drop_nil, List.append_nil]
    have := updateTail_applyOne decode next [] e hsn hb (by simp)
    rw [List.append_nil, List.append_nil] at this
    exact this
  | cons y rest ih =>
    intro next e hsn hsc hcross hb
    have hsc' : kvsSorted rest := (List.pairwise_cons.mp hsc).2
    have hyrest := (List.pairwise_cons.mp hsc).1
    cases hc : bytesCompare y.raw.key e.kv.key
    · -- the key lies beyond `y`: step `y` over to `next`
      have hstep : mergeStep decode next (y :: rest) e
          = mergeStep decode (next ++ [y]) rest e := by
        unfold mergeStep
        rw [search_cons_lt hc]
        rcases hs2 : KeyValues.search rest e.kv.key with ⟨i, f⟩
        simp only [hs2]
        cases f <;>
          simp [List.take_succ_cons, List.drop_succ_cons, List.append_assoc]
      have hsn' : kvsSorted (next ++ [y]) := by
        refine List.pairwise_append.mpr ⟨hsn, List.pairwise_singleton _ _, ?_⟩
        intro a ha b hb'
        rcases List.mem_singleton.mp hb' with rfl
        exact hcross a ha b (List.mem_cons_self b rest)
      have hcross' : ∀ x ∈ next ++ [y], ∀ z ∈ rest, KeyLt x z := by
        intro x hx z hz
        rcases List.mem_append.mp hx with hx | hx
        · exact hcross x hx z (List.mem_cons_of_mem _ hz)
        · rcases List.mem_singleton.mp hx with rfl
          exact hyrest z hz
      have hb' : ∀ x ∈ next ++ [y], bytesCompare x.raw.key e.kv.key ≠ .gt := by
        intro x hx
        rcases List.mem_append.mp hx with hx | hx
        · exact hb x hx
        · rcases List.mem_singleton.mp hx with rfl
          rw [hc]
          intro h
          cases h
      rw [hstep, ih (next ++ [y]) e hsn' hsc' hcross' hb']
      rw [show next ++ y :: rest = (next ++ [y]) ++ rest by simp]
    · -- the key is exactly at `y`
      have hlow : ∀ x ∈ next, bytesCompare x.raw.key e.kv.key = .lt := by
        intro x hx
        exact bytesCompare_lt_of_lt_of_eq
          (hcross x hx y (List.mem_cons_self y rest)) (bytesCompare_eq_iff.mp hc)
      unfold mergeStep
      rw [search_cons_eq hc]
      simp only [if_pos, List.take_succ_cons, List.take_zero, List.drop_succ_cons,
        List.drop_zero]
      have htf : tailFound (next ++ [y]) e.kv.key = true := by
        rw [tailFound_concat]
        simp [hc]
      rw [updateTail_found decode htf, List.dropLast_concat,
        applyOne_append_low decode next (y :: rest) e hlow,
        applyOne_cons_eq decode hc, List.append_assoc]
    · -- the key precedes `y`: nothing of `current` is consumed
      unfold mergeStep
      rw [search_cons_gt hc]
      simp only [if_neg, List.take_zero, List.drop_zero, List.append_nil,
        Bool.false_eq_true, if_false]
      exact updateTail_applyOne decode next (y :: rest) e hsn hb (by
        intro z hz
        rcases List.mem_cons.mp hz with rfl | hz
        · exact hc
        · exact bytesCompare_gt_iff.mpr
            (bytesCompare_lt_trans (bytesCompare_gt_iff.mp hc) (hyrest z hz)))

theorem sorted_head_of_min {L : List Event} {e : Event} (hs : evsSorted L)
    (hm : e ∈ L) (hmin : ∀ y ∈ L, y ≠ e → evLt e y) : ∃ L', L = e :: L' := by
  cases L with
  | nil => cases hm
  | cons h t =>
    by_cases hhe : h = e
    · exact ⟨t, by rw [hhe]⟩
    · exfalso
      have het : e ∈ t := by
        rcases List.mem_cons.mp hm with h1 | h1
        · exact absurd h1.symm hhe
        · exact h1
      have h1 : evLt h e := (List.pairwise_cons.mp hs).1 e het
      have h2 : evLt e h := hmin h (List.mem_cons_self h t) hhe
      unfold evLt at h1 h2
      have h3 := kmLtb_trans h1 h2
      rw [kmLtb_irrefl] at h3
      cases h3

/-- The per-event strict bound of `evLt` on keys. -/
theorem evLt_key_ne_gt {a b : Event} (h : evLt a b) :
    bytesCompare a.kv.key b.kv.key ≠ .gt := by
  unfold evLt at h
  rcases kmLtb_iff.mp h with h | ⟨h, _⟩
  · have h' : bytesCompare a.kv.key b.kv.key = .lt := h
    rw [h']
    intro hx
    cases hx
  · have h' : a.kv.key = b.kv.key := h
    rw [bytesCompare_eq_iff.mpr h']
    intro hx
    cases hx

/-- The central equivalence: the heap merge walk computes exactly the
reference fold of the remaining events in ascending (key, mod-revision)
order. -/
theorem mergeLoop_eq_ref {V : Type} (decode : KeyValueDecoder V) :
    ∀ (hp : List WatchResponse) (next current : KeyValues V) (L : List Event),
    IsHeapN wrLess hp hp.length →
    (∀ wr ∈ hp, evsSorted wr.events) →
    evsDistinct (hp.flatMap (fun w => w.events)) →
    kvsSorted next → kvsSorted current →
    (∀ x ∈ next, ∀ y ∈ current, KeyLt x y) →
    (∀ ev ∈ hp.flatMap (fun w => w.events), ∀ x ∈ next,
      bytesCompare x.raw.key ev.kv.key ≠ .gt) →
    List.Perm L (hp.flatMap (fun w => w.events)) →
    evsSorted L →
    mergeLoop decode hp next current = applyEvents decode (next ++ current) L := by
  suffices H : ∀ (n : Nat) (hp : List WatchResponse) (next current : KeyValues V)
      (L : List Event), wrMeasure hp = n →
      IsHeapN wrLess hp hp.length →
      (∀ wr ∈ hp, evsSorted wr.events) →
      evsDistinct (hp.flatMap (fun w => w.events)) →
      kvsSorted next → kvsSorted current →
      (∀ x ∈ next, ∀ y ∈ current, KeyLt x y) →
      (∀ ev ∈ hp.flatMap (fun w => w.events), ∀ x ∈ next,
        bytesCompare x.raw.key ev.kv.key ≠ .gt) →
      List.Perm L (hp.flatMap (fun w => w.events)) →
      evsSorted L →
      mergeLoop decode hp next current = applyEvents decode (next ++ current) L by
    intro hp next current L h1 h2 h3 h4 h5 h6 h7 h8 h9
    exact H (wrMeasure hp) hp next current L rfl h1 h2 h3 h4 h5 h6 h7 h8 h9
  have hsymm : ∀ (a b : Event), evKM a ≠ evKM b → evKM b ≠ evKM a :=
    fun _ _ h => Ne.symm h
  intro n
  induction n using Nat.strong_induction_on with
  | _ n IH =>
    intro hp next current L hn h1 h2 h3 h4 h5 h6 h7 h8 h9
    by_cases hhp : hp = []
    · subst hhp
      have hL : L = [] := by
        have h8' := h8
        simp only [List.flatMap_nil] at h8'
        exact h8'.eq_nil
      subst hL
      rw [mergeLoop]
      simp [applyEvents]
    · have hpop := heapPop_spec wrLess wrLess_laws hp hhp h1
      obtain ⟨hfst, hperm, hlen, hheap', hmin⟩ := hpop
      have hxmem : (heapPop wrLess hp).1 ∈ hp :=
        hperm.subset (List.mem_cons_self _ _)
      have hfm : List.Perm (hp.flatMap (fun w => w.events))
          ((heapPop wrLess hp).1.events
            ++ (heapPop wrLess hp).2.flatMap (fun w => w.events)) := by
        have h0 := List.Perm.flatMap_right (fun w => w.events) hperm.symm
        simpa using h0
      rw [mergeLoop]
      rw [dif_neg hhp]
      split
      · -- the popped response has no events left: drop it
        rename_i hev
        have hfm2 : List.Perm (hp.flatMap (fun w => w.events))
            ((heapPop wrLess hp).2.flatMap (fun w => w.events)) := by
          rw [hev] at hfm
          simpa using hfm
        have hmeas := heapPop_wrMeasure hhp
        rw [hev] at hmeas
        simp only [List.length_nil] at hmeas
        apply IH (wrMeasure (heapPop wrLess hp).2) (by omega)
          _ next current L rfl
        · rw [hlen]
          exact hheap'
        · intro wr hwr
          exact h2 wr (hperm.subset (List.mem_cons_of_mem _ hwr))
        · unfold evsDistinct at h3 ⊢
          exact (List.Perm.pairwise_iff (fun h => hsymm _ _ h) hfm2).mp h3
        · exact h4
        · exact h5
        · exact h6
        · intro ev hev' z hz
          exact h7 ev (hfm2.mem_iff.mpr hev') z hz
        · exact h8.trans hfm2
        · exact h9
      · -- apply the minimal event of the whole heap
        rename_i e rest hev
        have hse : evsSorted (heapPop wrLess hp).1.events := h2 _ hxmem
        rw [hev] at hse
        have hepair := List.pairwise_cons.mp hse
        have hemem : e ∈ hp.flatMap (fun w => w.events) := by
          apply hfm.symm.subset
          rw [hev]
          exact List.mem_append_left _ (List.mem_cons_self _ _)
        have hdist2 : List.Pairwise (fun a b : Event => evKM a ≠ evKM b) ((e :: rest)
            ++ (heapPop wrLess hp).2.flatMap (fun w => w.events)) := by
          unfold evsDistinct at h3
          have hd := (List.Perm.pairwise_iff (fun h => hsymm _ _ h) hfm).mp h3
          rw [hev] at hd
          exact hd
        have hcrossne : ∀ y ∈ (heapPop wrLess hp).2.flatMap (fun w => w.events),
            evKM e ≠ evKM y := by
          have hsplit := List.pairwise_append.mp hdist2
          intro y hy
          exact hsplit.2.2 e (List.mem_cons_self _ _) y hy
        have hminE : ∀ y ∈ hp.flatMap (fun w => w.events), y ≠ e → evLt e y := by
          intro y hy hyne
          have hy2 := hfm.subset hy
          rw [hev] at hy2
          rcases List.mem_append.mp hy2 with hy2 | hy2
          · rcases List.mem_cons.mp hy2 with rfl | hy2
            · exact absurd rfl hyne
            · exact hepair.1 y hy2
          · rcases List.mem_flatMap.mp hy2 with ⟨wr2, hwr2, hywr⟩
            have hwrne : wr2.events ≠ [] := by
              intro h0
              rw [h0] at hywr
              cases hywr
            obtain ⟨e2, t2, he2⟩ := List.exists_cons_of_ne_nil hwrne
            have hless : wrLess wr2 (heapPop wrLess hp).1 = false := by
              rw [hfst]
              exact hmin wr2 hwr2
            rw [wrLess_eq_rank] at hless
            have hr1 : wrRank wr2 = some (evKM e2) := by
              unfold wrRank
              rw [he2]
            have hr2 : wrRank (heapPop wrLess hp).1 = some (evKM e) := by
              unfold wrRank
              rw [hev]
            rw [hr1, hr2] at hless
            have hless2 : kmLtb (evKM e2) (evKM e) = false := hless
            have he2mem : e2 ∈ (heapPop wrLess hp).2.flatMap (fun w => w.events) :=
              List.mem_flatMap.mpr ⟨wr2, hwr2, by
                rw [he2]
                exact List.mem_cons_self _ _⟩
            have he_lt_e2 : kmLtb (evKM e) (evKM e2) = true := by
              rcases kmLtb_total hless2 with h | h
              · exact h
              · exact absurd h.symm (hcrossne e2 he2mem)
            have hsw : evsSorted wr2.events :=
              h2 wr2 (hperm.subset (List.mem_cons_of_mem _ hwr2))
            rw [he2] at hsw hywr
            rcases List.mem_cons.mp hywr with rfl | hyt
            · exact he_lt_e2
            · exact kmLtb_trans he_lt_e2 ((List.pairwise_cons.mp hsw).1 y hyt)
        have heL : e ∈ L := h8.mem_iff.mpr hemem
        obtain ⟨L2, hL2⟩ := sorted_head_of_min h9 heL
          (fun y hy hyne => hminE y (h8.subset hy) hyne)
        have hstep := mergeStep_eq decode current next e h4 h5 h6
          (fun z hz => h7 e hemem z hz)
        have hfm3 : List.Perm (hp.flatMap (fun w => w.events))
            (e :: (rest ++ (heapPop wrLess hp).2.flatMap (fun w => w.events))) := by
          rw [hev] at hfm
          simpa using hfm
        have hheap2 : IsHeapN wrLess (heapPop wrLess hp).2 (heapPop wrLess hp).2.length := by
          rw [hlen]
          exact hheap'
        have hpushperm := heapPush_perm wrLess (heapPop wrLess hp).2
          { (heapPop wrLess hp).1 with events := rest }
        have hpushheap := (heapPush_spec wrLess wrLess_laws (heapPop wrLess hp).2
          { (heapPop wrLess hp).1 with events := rest } hheap2).2
        have hfmpush : List.Perm
            ((heapPush wrLess (heapPop wrLess hp).2
              { (heapPop wrLess hp).1 with events := rest }).flatMap (fun w => w.events))
            (rest ++ (heapPop wrLess hp).2.flatMap (fun w => w.events)) := by
          have h0 := List.Perm.flatMap_right (fun w => w.events) hpushperm
          simpa using h0
        have hrem : ∀ ev2 ∈ rest ++ (heapPop wrLess hp).2.flatMap (fun w => w.events),
            evLt e ev2 := by
          intro ev2 hev2
          rcases List.mem_append.mp hev2 with h | h
          · exact hepair.1 ev2 h
          · have hne : ev2 ≠ e := by
              intro heq
              exact hcrossne ev2 h (by rw [heq])
            apply hminE ev2 ?_ hne
            apply hfm.symm.subset
            rw [hev]
            exact List.mem_append_right _ h
        have hsorted_app : kvsSorted (next ++ current) :=
          List.pairwise_append.mpr ⟨h4, h5, h6⟩
        have hsorted_step : kvsSorted ((mergeStep decode next current e).1
            ++ (mergeStep decode next current e).2) := by
          rw [hstep]
          exact applyOne_sorted decode (next ++ current) e hsorted_app
        have hps := List.pairwise_append.mp hsorted_step
        have hbound2 : ∀ ev2 ∈ rest ++ (heapPop wrLess hp).2.flatMap (fun w => w.events),
            ∀ z ∈ (mergeStep decode next current e).1,
            bytesCompare z.raw.key ev2.kv.key ≠ .gt := by
          intro ev2 hev2 z hz
          have hze : bytesCompare z.raw.key e.kv.key ≠ .gt := by
            rcases updateTail_keys decode _ e z hz with hmem | hkey
            · rcases List.mem_append.mp hmem with hmem | hmem
              · exact h7 e hemem z hmem
              · exact search_take_bound current e.kv.key z hmem
            · rw [hkey, bytesCompare_refl]
              intro h0
              cases h0
          exact bytesCompare_ne_gt_trans hze (evLt_key_ne_gt (hrem ev2 hev2))
        have hmeas := heapPop_wrMeasure hhp
        rw [hev] at hmeas
        simp only [List.length_cons] at hmeas
        have hmeas2 := heapPush_wrMeasure (heapPop wrLess hp).2
          { (heapPop wrLess hp).1 with events := rest }
        have hmeas3 : ({ (heapPop wrLess hp).1 with events := rest }
            : WatchResponse).events.length = rest.length := rfl
        rw [hL2]
        have hfold : applyEvents decode (next ++ current) (e :: L2)
            = applyEvents decode ((mergeStep decode next current e).1
                ++ (mergeStep decode next current e).2) L2 := by
          unfold applyEvents
          rw [List.foldl_cons, hstep]
        rw [hfold]
        have hL2perm : List.Perm L2
            (rest ++ (heapPop wrLess hp).2.flatMap (fun w => w.events)) := by
          have hcons : List.Perm (e :: L2)
              (e :: (rest ++ (heapPop wrLess hp).2.flatMap (fun w => w.events))) := by
            rw [← hL2]
            exact h8.trans hfm3
          exact (List.perm_cons e).mp hcons
        apply IH (wrMeasure (heapPush wrLess (heapPop wrLess hp).2
            { (heapPop wrLess hp).1 with events := rest })) (by omega)
          _ _ _ _ rfl
        · have hlen2 : (heapPush wrLess (heapPop wrLess hp).2
              { (heapPop wrLess hp).1 with events := rest }).length
              = (heapPop wrLess hp).2.length + 1 := by
            rw [hpushperm.length_eq]
            simp
          rw [hlen2]
          exact hpushheap
        · intro wr hwr
          rcases List.mem_cons.mp (hpushperm.subset hwr) with rfl | hwr2
          · exact hepair.2
          · exact h2 wr (hperm.subset (List.mem_cons_of_mem _ hwr2))
        · unfold evsDistinct at h3 ⊢
          apply (List.Perm.pairwise_iff (fun h => hsymm _ _ h) hfmpush.symm).mp
          have hd3 := (List.Perm.pairwise_iff (fun h => hsymm _ _ h) hfm3).mp h3
          exact (List.pairwise_cons.mp hd3).2
        · exact hps.1
        · exact hps.2.1
        · exact hps.2.2
        · intro ev2 hev2 z hz
          exact hbound2 ev2 (hfmpush.subset hev2) z hz
        · exact hL2perm.trans hfmpush.symm
        · rw [hL2] at h9
          exact (List.pairwise_cons.mp h9).2


/-! ### The stable per-response sort -/

theorem insertEvt_perm (x : Event) : ∀ (l : List Event),
    List.Perm (insertEvt x l) (x :: l) := by
  intro l
  induction l with
  | nil => exact List.Perm.refl _
  | cons y ys ih =>
    unfold insertEvt
    split
    · exact (ih.cons y).trans (List.Perm.swap x y ys)
    · exact List.Perm.refl _

theorem sortEvts_perm (evs : List Event) : List.Perm (sortEvts evs) evs := by
  unfold sortEvts
  induction evs with
  | nil => exact List.Perm.refl _
  | cons x xs ih =>
    rw [List.foldr_cons]
    exact (insertEvt_perm x _).trans (ih.cons x)

theorem insertEvt_sorted {x : Event} : ∀ {l : List Event},
    evsSorted l →
    (∀ y ∈ l, x.kv.modRevision ≤ y.kv.modRevision) →
    (∀ y ∈ l, evKM x ≠ evKM y) →
    evsSorted (insertEvt x l) := by
  intro l
  induction l with
  | nil =>
    intro _ _ _
    exact List.pairwise_singleton _ _
  | cons y ys ih =>
    intro hs hmod hne
    have hpc := List.pairwise_cons.mp hs
    unfold insertEvt
    split
    · -- y stays in front
      rename_i hlt
      refine List.pairwise_cons.mpr ⟨?_, ih hpc.2
        (fun z hz => hmod z (List.mem_cons_of_mem _ hz))
        (fun z hz => hne z (List.mem_cons_of_mem _ hz))⟩
      intro z hz
      rcases List.mem_cons.mp ((insertEvt_perm x ys).subset hz) with rfl | hz
      · -- z = x : y's key is strictly below x's
        unfold evLt
        exact kmLtb_iff.mpr (Or.inl hlt)
      · exact hpc.1 z hz
    · -- x goes in front of y
      rename_i hnlt
      have hxy : evLt x y := by
        unfold evLt
        apply kmLtb_iff.mpr
        cases hc : bytesCompare x.kv.key y.kv.key
        · exact Or.inl hc
        · right
          refine ⟨bytesCompare_eq_iff.mp hc, ?_⟩
          have h1 := hmod y (List.mem_cons_self y ys)
          have h2 := hne y (List.mem_cons_self y ys)
          have h3 : x.kv.modRevision ≠ y.kv.modRevision := by
            intro hm
            apply h2
            unfold evKM
            rw [bytesCompare_eq_iff.mp hc, hm]
          show x.kv.modRevision < y.kv.modRevision
          omega
        · exact absurd (bytesCompare_gt_iff.mp hc) hnlt
      refine List.pairwise_cons.mpr ⟨?_, hs⟩
      intro z hz
      rcases List.mem_cons.mp hz with rfl | hz
      · exact hxy
      · exact kmLtb_trans hxy (hpc.1 z hz)

/-- Events already weakly ascending on mod-revision (as Etcd delivers them)
with pairwise-distinct (key, mod-revision) pairs are strictly
(key, mod-revision)-sorted after the stable key sort. -/
theorem sortEvts_sorted : ∀ {evs : List Event},
    List.Pairwise (fun a b => a.kv.modRevision ≤ b.kv.modRevision) evs →
    evsDistinct evs →
    evsSorted (sortEvts evs) := by
  intro evs
  induction evs with
  | nil =>
    intro _ _
    exact List.Pairwise.nil
  | cons x xs ih =>
    intro hmod hdist
    have hmp := List.pairwise_cons.mp hmod
    have hdp := List.pairwise_cons.mp hdist
    unfold sortEvts
    rw [List.foldr_cons]
    exact insertEvt_sorted (ih hmp.2 hdp.2)
      (fun y hy => hmp.1 y ((sortEvts_perm xs).subset hy))
      (fun y hy => hdp.1 y ((sortEvts_perm xs).subset hy))

/-! ## KeySpace.Apply and KeySpace.Load -/

/-- The header fold at the top of `KeySpace.Apply`: starting from a
zero-valued header, each response's header must patch in with a strictly
greater revision. -/
def foldHeaders (responses : List WatchResponse) : Except String ResponseHeader :=
  responses.foldlM (fun h wr => patchHeader h wr.header false) ResponseHeader.zero

/-- Embedding of `KeySpace.Apply` (key_space.go).  On any error the state
is returned unchanged (the Go method returns before mutating, or before
swapping in the rebuilt list). -/
def KeySpace.apply {V : Type} (decode : KeyValueDecoder V) (ks : KeySpaceState V)
    (responses : List WatchResponse) : KeySpaceState V × Option String :=
  match foldHeaders responses with
  | .error e => (ks, some e)
  | .ok hdr =>
    let sorted := responses.map (fun wr => { wr with events := sortEvts wr.events })
    let next := mergeLoop decode (heapInit wrLess sorted) [] ks.keyValues
    let expectSameRevision : Bool := responses.length == 1 &&
      (responses.headD default).progressNotify &&
      ks.header.revision == hdr.revision
    match patchHeader ks.header hdr expectSameRevision with
    | .error e => (ks, some e)
    | .ok h2 => ({ header := h2, keyValues := next }, none)

/-- A snapshot chunk delivered by `mirror.SyncBase` during `KeySpace.Load`
(an Etcd `GetResponse`): a response header plus raw key/values. -/
structure GetResponse where
  header : ResponseHeader
  kvs : List MvccKV
  deriving DecidableEq, Repr

/-- Embedding of `KeySpace.Load` (key_space.go): the header and key/values
are reset, each snapshot response is folded in (headers with
`allowSameRevision`, key/values decoded and appended — decode failures are
logged and dropped), and finally the header's revision is overwritten with
the requested revision.  `rev` is the effective revision (the Go code
resolves `rev == 0` to a recent revision via an Etcd Get first).  The prior
state is discarded entirely. -/
def KeySpace.load {V : Type} (decode : KeyValueDecoder V) (_ks : KeySpaceState V)
    (rev : Int) (responses : List GetResponse) : Except String (KeySpaceState V) :=
  let step : KeySpaceState V → GetResponse → Except String (KeySpaceState V) :=
    fun s resp =>
      match patchHeader s.header resp.header true with
      | .error e => .error e
      | .ok h2 =>
        .ok { header := h2,
              keyValues := resp.kvs.foldl
                (fun kvs kv => (appendKeyValue decode kvs kv).1) s.keyValues }
  match responses.foldlM step { header := ResponseHeader.zero, keyValues := [] } with
  | .error e => .error e
  | .ok s => .ok { s with header := { s.header with revision := rev } }

/-! ## Lock / observer / signal traces

`KeySpace.Load` and `KeySpace.Apply` mutate state and notify observers
inside an exclusive-lock critical section (`onUpdate` in key_space.go).
The traces below record, in program order, the lock operations, the state
mutation, each observer invocation (by registration index) and the closing
of the update channel. -/

inductive KsAction where
  | lock
  | setState
  | observer (i : Nat)
  | signal
  | unlock
  deriving DecidableEq, Repr

/-- Embedding of `KeySpace.onUpdate` (key_space.go): each observer is
invoked in registration order, then the update channel is closed and
replaced, waking waiters. -/
def onUpdateActions (numObservers : Nat) : List KsAction :=
  (List.range numObservers).map KsAction.observer ++ [KsAction.signal]

/-- The action trace of `KeySpace.Apply`: an error in the initial header
fold returns before the critical section; otherwise the exclusive lock is
taken, and the state swap plus `onUpdate` run only when the final header
patch succeeds; the lock is always released. -/
def applyActions {V : Type} (decode : KeyValueDecoder V) (ks : KeySpaceState V)
    (responses : List WatchResponse) (numObservers : Nat) : List KsAction :=
  match foldHeaders responses with
  | .error _ => []
  | .ok hdr =>
    let expectSameRevision : Bool := responses.length == 1 &&
      (responses.headD default).progressNotify &&
      ks.header.revision == hdr.revision
    [KsAction.lock] ++
    (match patchHeader ks.header hdr expectSameRevision with
     | .error _ => []
     | .ok _ => [KsAction.setState] ++ onUpdateActions numObservers) ++
    [KsAction.unlock]

/-- The action trace of `KeySpace.Load`: the exclusive lock is taken (and
released by defer on all paths), the state is reset and loaded, and
`onUpdate` runs only when loading succeeded. -/
def loadActions {V : Type} (decode : KeyValueDecoder V) (ks : KeySpaceState V)
    (rev : Int) (responses : List GetResponse) (numObservers : Nat) : List KsAction :=
  [KsAction.lock, KsAction.setState] ++
  (match KeySpace.load decode ks rev responses with
   | .error _ => []
   | .ok _ => onUpdateActions numObservers) ++
  [KsAction.unlock]

/-! ## KeySpace.WaitForRevision

The loop is modelled over the sequence of states it observes: the first
element is the state at entry (shared lock held), and each further element
is the state observed after releasing the lock, being woken (by the update
channel or by context cancellation) and re-acquiring the lock. -/

/-- One observation of the shared state at the top of the wait loop. -/
structure WaitObs where
  revision : Int
  ctxErr : Option String
  deriving DecidableEq, Repr

/-- Embedding of `KeySpace.WaitForRevision` (key_space.go): return `nil`
once the revision is at least the target, the context's error if it is
cancelled first; otherwise wait for the next update.  `none` models a wait
that is still blocked when the observation sequence ends. -/
def waitForRevision (revision : Int) : List WaitObs → Option (Option String)
  | [] => none
  | o :: rest =>
    if o.revision ≥ revision then some none
    else
      match o.ctxErr with
      | some e => some (some e)
      | none => waitForRevision revision rest

/-- The shared-lock trace of `KeySpace.WaitForRevision`: `false` is an
`RUnlock`, `true` an `RLock`; the loop releases and re-acquires the lock
around each wait and returns with the lock held. -/
def waitLockTrace (revision : Int) : List WaitObs → List Bool
  | [] => []
  | o :: rest =>
    if o.revision ≥ revision then []
    else
      match o.ctxErr with
      | some _ => []
      | none => [false, true] ++ waitLockTrace revision rest

/-! ## Service.maintenanceLoop (broker/service.go) -/

/-- `protocol.Status` (protocol.proto). -/
inductive Status where
  | ok
  | journalNotFound
  | noJournalPrimaryBroker
  | notJournalPrimaryBroker
  | insufficientJournalBrokers
  | notJournalBroker
  | offsetNotYetAvailable
  | wrongRoute
  | fragmentMismatch
  | etcdTransactionFailed
  | notAllowed
  | wrongAppendOffset
  | indexHasGreaterOffset
  deriving DecidableEq, Repr

/-- The resolver arguments built by `Service.maintenanceLoop`. -/
structure ResolveArgs where
  mayProxy : Bool
  requirePrimary : Bool
  requireFullAssignment : Bool
  minEtcdRevision : Int
  deriving DecidableEq, Repr

/-- The base arguments of each maintenance iteration (service.go):
`mayProxy`, `requirePrimary` and `requireFullAssignment` all false. -/
def maintenanceArgs (minRevision : Int) : ResolveArgs :=
  { mayProxy := false, requirePrimary := false, requireFullAssignment := false,
    minEtcdRevision := minRevision }

/-- The `CheckHealth` label of the loop sets `requirePrimary` and
`requireFullAssignment` before resolving. -/
def checkHealthArgs (a : ResolveArgs) : ResolveArgs :=
  { a with requirePrimary := true, requireFullAssignment := true }

/-- What the CheckHealth branch does with the resolution outcome. -/
inductive HealthOutcome where
  | resolveFailed
  | skipped
  | statusFailed
  | checked
  deriving DecidableEq, Repr

/-- Embedding of the `CheckHealth` branch of `Service.maintenanceLoop`
(service.go): a resolution error is a failed check;
`NOT_JOURNAL_PRIMARY_BROKER` is passed over silently (only the current
primary checks pipeline health); any other non-OK status is a failed
check; on OK the health check runs. -/
def checkHealthBranch : Except String Status → HealthOutcome
  | .error _ => .resolveFailed
  | .ok s =>
    if s = Status.notJournalPrimaryBroker then .skipped
    else if s ≠ Status.ok then .statusFailed
    else .checked

/-! ## gazctl journals prune -/

/-- `protocol.Fragment` as used by the prune command: only the fields the
command reads.  `modTime` is in Unix seconds (`spec.ModTime`), `begin`
and `end` are byte offsets. -/
structure PbFragment where
  journal : String
  beginOffset : Int
  endOffset : Int
  backingStore : String
  modTime : Int
  deriving DecidableEq, Repr

/-- Embedding of `fetchAgedFragments` (gazctl journals prune): of the
listed fragments, keep those with a non-empty backing store whose age
`now.Sub(time.Unix(f.ModTime, 0))` is at least the journal's retention.
`now` and `retention` are in nanoseconds, `modTime` in seconds
(`time.Unix`), hence the conversion factor. -/
def fetchAgedFragments (retention : Int) (now : Int) (listed : List PbFragment) :
    List PbFragment :=
  listed.foldl (fun aged f =>
    if f.backingStore = "" then aged
    else if now - f.modTime * 1000000000 ≥ retention then aged ++ [f]
    else aged) []

/-- The removal performed by `cmdJournalsPrune.Execute` for one journal:
every aged fragment is removed from its backing store, unless dry-run. -/
def pruneRemoved (dryRun : Bool) (retention now : Int) (listed : List PbFragment) :
    List PbFragment :=
  if dryRun then [] else fetchAgedFragments retention now listed

/-! ## NewKeySpace and Go's `path.Clean`

`NewKeySpace` panics unless the prefix is a cleaned path; `path.Clean` of
the Go standard library is embedded below over `List Char` (byte-for-byte
for the ASCII bytes it inspects). -/

/-- The standard library's `lazybuf`: `buf` holds the bytes written so
far and `w` the logical length; `append` overwrites at position `w`. -/
structure Lazybuf where
  buf : List Char
  w : Nat
  deriving DecidableEq, Repr

def Lazybuf.append (out : Lazybuf) (c : Char) : Lazybuf :=
  ⟨out.buf.take out.w ++ [c], out.w + 1⟩

def Lazybuf.index (out : Lazybuf) (i : Nat) : Char :=
  out.buf.getD i ' '

def Lazybuf.string (out : Lazybuf) : List Char :=
  out.buf.take out.w

/-- The backtracking loop of the `..` case of `path.Clean`:
`for out.w > dotdot && out.index(out.w) != '/' { out.w-- }`. -/
def cleanBacktrack (buf : List Char) (dotdot : Nat) (w : Nat) : Nat :=
  if w > dotdot ∧ buf.getD w ' ' ≠ '/' then cleanBacktrack buf dotdot (w - 1)
  else w
termination_by w

/-- The element-copy loop of `path.Clean`:
`for ; r < n && path[r] != '/'; r++ { out.append(path[r]) }`. -/
def cleanCopy (p : List Char) (n : Nat) (out : Lazybuf) (r : Nat) : Lazybuf × Nat :=
  if r < n ∧ p.getD r ' ' ≠ '/' then cleanCopy p n (out.append (p.getD r ' ')) (r + 1)
  else (out, r)
termination_by n - r

theorem cleanCopy_r_ge (p : List Char) (n : Nat) :
    ∀ out r, r ≤ (cleanCopy p n out r).2 := by
  intro out r
  induction out, r using cleanCopy.induct p n with
  | case1 out r h ih =>
    rw [cleanCopy, if_pos h]
    omega
  | case2 out r h =>
    rw [cleanCopy, if_neg h]

/-- The main loop of Go's `path.Clean`. -/
def cleanLoop (p : List Char) (n : Nat) (rooted : Bool) (out : Lazybuf)
    (dotdot r : Nat) : Lazybuf × Nat :=
  if hr : r < n then
    if p.getD r ' ' = '/' then
      -- empty path element
      cleanLoop p n rooted out dotdot (r + 1)
    else if p.getD r ' ' = '.' ∧ (r + 1 = n ∨ p.getD (r + 1) ' ' = '/') then
      -- . element
      cleanLoop p n rooted out dotdot (r + 1)
    else if p.getD r ' ' = '.' ∧ p.getD (r + 1) ' ' = '.'
        ∧ (r + 2 = n ∨ p.getD (r + 2) ' ' = '/') then
      -- .. element
      if out.w > dotdot then
        cleanLoop p n rooted
          { out with w := cleanBacktrack out.buf dotdot (out.w - 1) } dotdot (r + 2)
      else if ¬ rooted then
        let out1 := if out.w > 0 then out.append '/' else out
        let out2 := (out1.append '.').append '.'
        cleanLoop p n rooted out2 out2.w (r + 2)
      else
        cleanLoop p n rooted out dotdot (r + 2)
    else
      -- real path element: add slash if needed, then copy
      let out1 := if (rooted ∧ out.w ≠ 1) ∨ (¬ rooted ∧ out.w ≠ 0) then out.append '/'
        else out
      let st := cleanCopy p n (out1.append (p.getD r ' ')) (r + 1)
      cleanLoop p n rooted st.1 dotdot st.2
  else (out, dotdot)
termination_by n - r
decreasing_by
  · omega
  · omega
  · omega
  · omega
  · omega
  · split
    · have h2 := cleanCopy_r_ge p n ((out.append '/').append (p.getD r ' ')) (r + 1)
      omega
    · have h2 := cleanCopy_r_ge p n (out.append (p.getD r ' ')) (r + 1)
      omega

/-- Embedding of Go's `path.Clean`. -/
def pathClean (p : List Char) : List Char :=
  if p = [] then ['.']
  else
    let rooted := p.getD 0 ' ' = '/'
    let n := p.length
    let st :=
      if rooted then cleanLoop p n rooted (Lazybuf.append ⟨[], 0⟩ '/') 1 1
      else cleanLoop p n rooted ⟨[], 0⟩ 0 0
    if st.1.w = 0 then ['.'] else st.1.string

/-- The construction-time fields of a `KeySpace` (key_space.go). -/
structure KeySpaceInit where
  root : List Char
  watchApplyDelay : Nat
  deriving DecidableEq, Repr

/-- Embedding of `NewKeySpace` (key_space.go): panics — modelled as
`none` — unless the prefix equals its cleaned form; otherwise the KeySpace
roots at the prefix with the default 30ms (in nanoseconds) watch-apply
delay. -/
def newKeySpace (pfx : List Char) : Option KeySpaceInit :=
  if pathClean pfx ≠ pfx then none
  else some { root := pfx, watchApplyDelay := 30000000 }


/-! ## Supporting lemmas for the claims -/

theorem foldl_aged_append (retention now : Int) :
    ∀ (listed : List PbFragment) (acc : List PbFragment),
    listed.foldl (fun aged f =>
      if f.backingStore = "" then aged
      else if now - f.modTime * 1000000000 ≥ retention then aged ++ [f]
      else aged) acc
    = acc ++ listed.filter (fun f =>
        ¬ f.backingStore = "" ∧ now - f.modTime * 1000000000 ≥ retention) := by
  intro listed
  induction listed with
  | nil =>
    intro acc
    simp
  | cons f fs ih =>
    intro acc
    rw [List.foldl_cons, List.filter_cons]
    by_cases h1 : f.backingStore = ""
    · rw [if_pos h1]
      have : ¬ (¬ f.backingStore = "" ∧ now - f.modTime * 1000000000 ≥ retention) :=
        fun h => h.1 h1
      rw [if_neg (by simpa using this)]
      exact ih acc
    · rw [if_neg h1]
      by_cases h2 : now - f.modTime * 1000000000 ≥ retention
      · rw [if_pos h2]
        rw [if_pos (by simpa using ⟨h1, h2⟩)]
        rw [ih (acc ++ [f])]
        simp
      · rw [if_neg h2]
        have : ¬ (¬ f.backingStore = "" ∧ now - f.modTime * 1000000000 ≥ retention) :=
          fun h => h2 h.2
        rw [if_neg (by simpa using this)]
        exact ih acc

/-! ## The claims -/

/-- C6: for every journal and prune time, the fragments selected for
removal by a prune pass are exactly the listed fragments with a non-empty
backing store whose age (now minus mod-time) is at least the retention;
each selected fragment is removed unless dry-run, and no younger persisted
fragment is selected. -/
theorem prune_selects_exactly_aged :
    (∀ (retention now : Int) (listed : List PbFragment),
      fetchAgedFragments retention now listed
        = listed.filter (fun f =>
            ¬ f.backingStore = "" ∧ now - f.modTime * 1000000000 ≥ retention)) ∧
    (∀ (retention now : Int) (listed : List PbFragment) (f : PbFragment),
      f ∈ fetchAgedFragments retention now listed ↔
        (f ∈ listed ∧ f.backingStore ≠ ""
          ∧ now - f.modTime * 1000000000 ≥ retention)) ∧
    (∀ (dryRun : Bool) (retention now : Int) (listed : List PbFragment),
      pruneRemoved dryRun retention now listed
        = if dryRun then [] else fetchAgedFragments retention now listed) := by
  refine ⟨?_, ?_, ?_⟩
  · intro retention now listed
    unfold fetchAgedFragments
    simpa using foldl_aged_append retention now listed []
  · intro retention now listed f
    unfold fetchAgedFragments
    rw [show (listed.foldl (fun aged f =>
      if f.backingStore = "" then aged
      else if now - f.modTime * 1000000000 ≥ retention then aged ++ [f]
      else aged) [] : List PbFragment)
      = listed.filter (fun f =>
          ¬ f.backingStore = "" ∧ now - f.modTime * 1000000000 ≥ retention) by
        simpa using foldl_aged_append retention now listed []]
    rw [List.mem_filter]
    simp only [decide_eq_true_eq, ne_eq]
  · intro dryRun retention now listed
    rfl

/-- C7: each pipeline health check of the maintenance loop resolves with
`requirePrimary` (and `requireFullAssignment`) set; a status of
`NOT_JOURNAL_PRIMARY_BROKER` skips the check without error, every other
non-OK outcome (a resolution error or another status) is a check
failure, and OK runs the check. -/
theorem maintenance_health_check_gating :
    (∀ r : Int, (checkHealthArgs (maintenanceArgs r)).requirePrimary = true ∧
      (checkHealthArgs (maintenanceArgs r)).requireFullAssignment = true ∧
      (checkHealthArgs (maintenanceArgs r)).minEtcdRevision = r) ∧
    checkHealthBranch (.ok Status.notJournalPrimaryBroker) = .skipped ∧
    checkHealthBranch (.ok Status.ok) = .checked ∧
    (∀ s : Status, s ≠ Status.ok → s ≠ Status.notJournalPrimaryBroker →
      checkHealthBranch (.ok s) = .statusFailed) ∧
    (∀ e : String, checkHealthBranch (.error e) = .resolveFailed) := by
  refine ⟨fun r => ⟨rfl, rfl, rfl⟩, rfl, rfl, ?_, fun e => rfl⟩
  intro s hok hnp
  show (if s = Status.notJournalPrimaryBroker then HealthOutcome.skipped
    else if s ≠ Status.ok then HealthOutcome.statusFailed
    else HealthOutcome.checked) = HealthOutcome.statusFailed
  rw [if_neg hnp, if_pos hok]

/-- C5: a `WaitForRevision(R)` call returns nil as soon as an observed
state has revision at least R (in particular immediately when already
reached, and after any number of under-revision uncancelled waits),
returns the context's error when cancelled while still below R, and its
shared-lock trace is balanced — every release is matched by a re-acquire,
so the lock is held again whenever the call returns. -/
theorem waitForRevision_spec :
    (∀ (R : Int) (o : WaitObs) (rest : List WaitObs), o.revision ≥ R →
      waitForRevision R (o :: rest) = some none) ∧
    (∀ (R : Int) (o : WaitObs) (rest : List WaitObs) (e : String),
      o.revision < R → o.ctxErr = some e →
      waitForRevision R (o :: rest) = some (some e)) ∧
    (∀ (R : Int) (pre : List WaitObs) (o : WaitObs) (rest : List WaitObs),
      (∀ p ∈ pre, p.revision < R ∧ p.ctxErr = none) → o.revision ≥ R →
      waitForRevision R (pre ++ o :: rest) = some none) ∧
    (∀ (R : Int) (obs : List WaitObs),
      (waitLockTrace R obs).count true = (waitLockTrace R obs).count false) := by
  refine ⟨?_, ?_, ?_, ?_⟩
  · intro R o rest h
    unfold waitForRevision
    rw [if_pos h]
  · intro R o rest e h1 h2
    unfold waitForRevision
    rw [if_neg (by omega), h2]
  · intro R pre
    induction pre with
    | nil =>
      intro o rest _ h
      rw [List.nil_append]
      unfold waitForRevision
      rw [if_pos h]
    | cons p ps ih =>
      intro o rest hpre h
      have hp := hpre p (List.mem_cons_self p ps)
      rw [List.cons_append]
      unfold waitForRevision
      rw [if_neg (by omega), hp.2]
      exact ih o rest (fun q hq => hpre q (List.mem_cons_of_mem _ hq)) h
  · intro R obs
    induction obs with
    | nil => rfl
    | cons o rest ih =>
      unfold waitLockTrace
      split
      · rfl
      · cases ho : o.ctxErr
        · simp only [ho, List.cons_append, List.nil_append]
          rw [List.count_cons, List.count_cons, List.count_cons, List.count_cons]
          simp [ih]
        · simp [ho]

/-- C10: `NewKeySpace` panics exactly when the prefix is not a cleaned
path; on a cleaned prefix it returns a KeySpace rooted at the prefix with
the default 30ms watch-apply delay. -/
theorem newKeySpace_spec :
    (∀ p : List Char, newKeySpace p = none ↔ pathClean p ≠ p) ∧
    (∀ p : List Char, pathClean p = p →
      newKeySpace p = some { root := p, watchApplyDelay := 30000000 }) := by
  constructor
  · intro p
    unfold newKeySpace
    constructor
    · intro h hne
      rw [if_neg (by simpa using hne)] at h
      cases h
    · intro h
      rw [if_pos h]
  · intro p h
    unfold newKeySpace
    rw [if_neg (by simpa using h)]


/-- C8: after every successful KeySpace state update (Load or Apply), the
action trace of the critical section is exactly: take the exclusive lock,
install the new state, invoke every registered observer in registration
order, signal waiters, and only then release the lock — so observers run
while the exclusive lock is still held. -/
theorem observers_run_in_order_under_lock :
    (∀ {V : Type} (decode : KeyValueDecoder V) (ks : KeySpaceState V)
      (responses : List WatchResponse) (n : Nat),
      (KeySpace.apply decode ks responses).2 = none →
      applyActions decode ks responses n
        = [KsAction.lock, KsAction.setState]
          ++ (List.range n).map KsAction.observer
          ++ [KsAction.signal, KsAction.unlock]) ∧
    (∀ {V : Type} (decode : KeyValueDecoder V) (ks : KeySpaceState V)
      (rev : Int) (responses : List GetResponse) (n : Nat),
      (KeySpace.load decode ks rev responses).isOk = true →
      loadActions decode ks rev responses n
        = [KsAction.lock, KsAction.setState]
          ++ (List.range n).map KsAction.observer
          ++ [KsAction.signal, KsAction.unlock]) := by
  constructor
  · intro V decode ks responses n h
    unfold KeySpace.apply at h
    unfold applyActions
    cases hf : foldHeaders responses with
    | error e =>
      rw [hf] at h
      simp at h
    | ok hdr =>
      rw [hf] at h
      simp only at h
      cases hp : patchHeader ks.header hdr
          (responses.length == 1 && (responses.headD default).progressNotify &&
            ks.header.revision == hdr.revision) with
      | error e =>
        rw [hp] at h
        simp at h
      | ok h2 =>
        simp only [hp, onUpdateActions]
        simp
  · intro V decode ks rev responses n h
    unfold loadActions
    cases hl : KeySpace.load decode ks rev responses with
    | error e =>
      rw [hl] at h
      simp [Except.isOk, Except.toBool] at h
    | ok s =>
      simp only [onUpdateActions]
      simp

/-- C9: every `KeySpace.Apply` that returns an error leaves the KeySpace
state (header and key/values) unchanged, invokes no observer callbacks and
signals no waiters: the rebuilt candidate list is installed only when
header patching succeeds. -/
theorem apply_error_leaves_state_unchanged {V : Type}
    (decode : KeyValueDecoder V) (ks : KeySpaceState V)
    (responses : List WatchResponse) (n : Nat) (e : String)
    (h : (KeySpace.apply decode ks responses).2 = some e) :
    (KeySpace.apply decode ks responses).1 = ks ∧
    (∀ a ∈ applyActions decode ks responses n,
      (∀ i : Nat, a ≠ KsAction.observer i) ∧ a ≠ KsAction.signal) := by
  unfold KeySpace.apply at h ⊢
  unfold applyActions
  cases hf : foldHeaders responses with
  | error e2 =>
    refine ⟨rfl, ?_⟩
    intro a ha
    simp at ha
  | ok hdr =>
    rw [hf] at h
    simp only at h
    cases hp : patchHeader ks.header hdr
        (responses.length == 1 && (responses.headD default).progressNotify &&
          ks.header.revision == hdr.revision) with
    | error e2 =>
      simp only [hp]
      refine ⟨trivial, ?_⟩
      intro a ha
      simp at ha
      rcases ha with rfl | rfl
      · exact ⟨fun i => by simp, by simp⟩
      · exact ⟨fun i => by simp, by simp⟩
    | ok h2 =>
      rw [hp] at h
      simp at h


theorem foldlM_patch_ok_mem : ∀ (rs : List WatchResponse) (init hdr : ResponseHeader),
    rs.foldlM (fun h wr => patchHeader h wr.header false) init = .ok hdr →
    rs = [] ∨ ∃ wr ∈ rs, hdr = wr.header := by
  intro rs
  induction rs with
  | nil =>
    intro init hdr h
    exact Or.inl rfl
  | cons r rest ih =>
    intro init hdr h
    right
    rw [List.foldlM_cons] at h
    cases hp : patchHeader init r.header false with
    | error e =>
      rw [hp] at h
      replace h : (Except.error e : Except String ResponseHeader) = .ok hdr := h
      exact Except.noConfusion h
    | ok h1 =>
      rw [hp] at h
      have h1r : h1 = r.header := (patchHeader_ok_rev hp).1
      have h2 : rest.foldlM
          (fun (h : ResponseHeader) (wr : WatchResponse) => patchHeader h wr.header false)
          h1 = .ok hdr := h
      rcases ih h1 hdr h2 with rfl | ⟨wr, hwr, hh⟩
      · replace h2 : (Except.ok h1 : Except String ResponseHeader) = .ok hdr := h2
        injection h2 with h2
        exact ⟨r, List.mem_cons_self r _, by rw [← h2, h1r]⟩
      · exact ⟨wr, List.mem_cons_of_mem _ hwr, hh⟩

/-- The header fold of `Apply` over a single response yields exactly that
response's header. -/
theorem foldHeaders_singleton_ok {r : WatchResponse} {hdr : ResponseHeader}
    (h : foldHeaders [r] = .ok hdr) : hdr = r.header := by
  unfold foldHeaders at h
  rw [List.foldlM_cons] at h
  cases hp : patchHeader ResponseHeader.zero r.header false with
  | error e =>
    rw [hp] at h
    simp [Except.bind] at h
  | ok h1 =>
    rw [hp] at h
    replace h : (Except.ok h1 : Except String ResponseHeader) = .ok hdr := h
    injection h with h
    rw [← h]
    exact (patchHeader_ok_rev hp).1

/-- C1 (amended): every successful `KeySpace.Apply` strictly increases the
recorded header revision, except that it stays equal exactly when the
batch is a single progress-notify response whose revision equals the
current one.  (`KeySpace.Load`, by contrast, overwrites the revision with
the requested one and may rewind it — see the counterexample.) -/
theorem apply_revision_monotonic {V : Type} (decode : KeyValueDecoder V)
    (ks : KeySpaceState V) (responses : List WatchResponse)
    (ks' : KeySpaceState V)
    (h : KeySpace.apply decode ks responses = (ks', none)) :
    ks.header.revision < ks'.header.revision ∨
    (ks'.header.revision = ks.header.revision ∧
      ∃ r, responses = [r] ∧ r.progressNotify = true ∧
        r.header.revision = ks.header.revision) := by
  unfold KeySpace.apply at h
  cases hf : foldHeaders responses with
  | error e =>
    rw [hf] at h
    simp at h
  | ok hdr =>
    rw [hf] at h
    simp only at h
    cases hp : patchHeader ks.header hdr
        (responses.length == 1 && (responses.headD default).progressNotify &&
          ks.header.revision == hdr.revision) with
    | error e =>
      rw [hp] at h
      simp at h
    | ok h2 =>
      rw [hp] at h
      have hks : ks'.header = h2 := by
        have := congrArg Prod.fst h
        simp at this
        rw [← this]
      obtain ⟨hupd, hrev⟩ := patchHeader_ok_rev hp
      cases hb : (responses.length == 1 && (responses.headD default).progressNotify &&
          ks.header.revision == hdr.revision) with
      | false =>
        rw [hb] at hrev
        simp at hrev
        left
        rw [hks, hupd]
        exact hrev
      | true =>
        rw [hb] at hrev
        simp at hrev
        simp only [Bool.and_eq_true, beq_iff_eq] at hb
        obtain ⟨⟨hlen, hpn⟩, hre⟩ := hb
        obtain ⟨r, rfl⟩ := List.length_eq_one.mp hlen
        right
        have hhdr : hdr = r.header := foldHeaders_singleton_ok hf
        refine ⟨by rw [hks, hupd]; omega, r, rfl, ?_, ?_⟩
        · simpa using hpn
        · rw [← hhdr]
          omega

/-- C1 counterexample: a successful `KeySpace.Load` can rewind the
recorded revision — loading revision 3 over a state at revision 5
succeeds and leaves the header at the strictly smaller revision 3, so the
revision is not monotonically non-decreasing across all successful
updates (Load or Apply). -/
theorem load_rewinds_revision_counterexample :
    ∃ ks' : KeySpaceState Bytes,
      KeySpace.load (fun kv => some kv.value)
        { header := { clusterId := 7, memberId := 1, revision := 5, raftTerm := 1 },
          keyValues := [] } 3 [] = .ok ks' ∧
      ks'.header.revision <
        ({ header := { clusterId := 7, memberId := 1, revision := 5, raftTerm := 1 },
           keyValues := [] } : KeySpaceState Bytes).header.revision :=
  ⟨_, rfl, by decide⟩

/-- C3: once the KeySpace header records a non-zero cluster id, an Apply
whose batch (all carrying some other cluster id c) conflicts with it
returns an error; while the recorded cluster id is still zero, a response
with any cluster id is accepted. -/
theorem apply_cluster_id_check :
    (∀ {V : Type} (decode : KeyValueDecoder V) (ks : KeySpaceState V)
      (responses : List WatchResponse) (c : Nat),
      ks.header.clusterId ≠ 0 → responses ≠ [] →
      (∀ wr ∈ responses, wr.header.clusterId = c) →
      c ≠ ks.header.clusterId →
      (KeySpace.apply decode ks responses).2.isSome = true) ∧
    (∀ {V : Type} (decode : KeyValueDecoder V) (ks : KeySpaceState V)
      (wr : WatchResponse),
      ks.header.clusterId = 0 → 0 < wr.header.revision →
      ks.header.revision < wr.header.revision →
      (KeySpace.apply decode ks [wr]).2 = none) := by
  constructor
  · intro V decode ks responses c hne0 hnenil hall hnec
    unfold KeySpace.apply
    cases hf : foldHeaders responses with
    | error e => rfl
    | ok hdr =>
      simp only
      obtain ⟨wr, hwr, rfl⟩ :=
        (foldlM_patch_ok_mem responses ResponseHeader.zero hdr hf).resolve_left hnenil
      have hcl : wr.header.clusterId = c := hall wr hwr
      rw [patchHeader, if_pos ⟨hne0, by rw [hcl]; exact fun hc => hnec hc.symm⟩]
      rfl
  · intro V decode ks wr h0 hpos hlt
    have hp : ∀ b, patchHeader ks.header wr.header b = .ok wr.header := by
      intro b
      unfold patchHeader
      rw [if_neg (fun hc => hc.1 h0)]
      rw [if_neg (by rintro ⟨-, hc⟩; omega)]
      rw [if_neg (by rintro ⟨-, hc⟩; omega)]
    have hf : foldHeaders [wr] = .ok wr.header := by
      unfold foldHeaders
      rw [List.foldlM_cons]
      rw [patchHeader]
      rw [if_neg (by simp [ResponseHeader.zero])]
      rw [if_neg (by simp)]
      rw [if_neg (by simp [ResponseHeader.zero]; omega)]
      rfl
    unfold KeySpace.apply
    rw [hf]
    simp only
    rw [hp]


theorem appendKeyValue_mem {V : Type} {decode : KeyValueDecoder V}
    {kvs : KeyValues V} {kv : MvccKV} {x : KeyValue V}
    (hx : x ∈ (appendKeyValue decode kvs kv).1) :
    x ∈ kvs ∨ ∃ v, decode kv = some v ∧ x = ⟨kv, v⟩ := by
  unfold appendKeyValue at hx
  cases hd : decode kv with
  | none =>
    rw [hd] at hx
    exact Or.inl hx
  | some v =>
    rw [hd] at hx
    simp at hx
    rcases hx with hx | hx
    · exact Or.inl hx
    · exact Or.inr ⟨v, rfl, hx⟩

theorem updateTail_mem {V : Type} {decode : KeyValueDecoder V}
    {kvs : KeyValues V} {e : Event} {x : KeyValue V}
    (hx : x ∈ (updateKeyValuesTail decode kvs e).1) :
    x ∈ kvs ∨ ∃ v, decode e.kv = some v ∧ x = ⟨e.kv, v⟩ := by
  obtain ⟨ty, ekv⟩ := e
  cases ty with
  | delete =>
    simp only [updateKeyValuesTail] at hx
    split at hx
    · exact Or.inl (List.Sublist.subset (List.dropLast_sublist _) hx)
    · exact Or.inl hx
  | put =>
    simp only [updateKeyValuesTail] at hx
    rcases appendKeyValue_mem hx with hx | hx
    · left
      split at hx
      · exact List.Sublist.subset (List.dropLast_sublist _) hx
      · exact hx
    · exact Or.inr hx

/-- Every entry produced by the merge walk either came from the input
lists or was decoded successfully from an event. -/
theorem mergeLoop_decoded {V : Type} (decode : KeyValueDecoder V) :
    ∀ (hp : List WatchResponse) (next current : KeyValues V),
    (∀ x ∈ next, decode x.raw = some x.decoded) →
    (∀ x ∈ current, decode x.raw = some x.decoded) →
    ∀ x ∈ mergeLoop decode hp next current, decode x.raw = some x.decoded := by
  suffices H : ∀ (n : Nat) (hp : List WatchResponse) (next current : KeyValues V),
      wrMeasure hp = n →
      (∀ x ∈ next, decode x.raw = some x.decoded) →
      (∀ x ∈ current, decode x.raw = some x.decoded) →
      ∀ x ∈ mergeLoop decode hp next current, decode x.raw = some x.decoded by
    intro hp next current h1 h2
    exact H (wrMeasure hp) hp next current rfl h1 h2
  intro n
  induction n using Nat.strong_induction_on with
  | _ n IH =>
    intro hp next current hn h1 h2
    by_cases hhp : hp = []
    · subst hhp
      rw [mergeLoop]
      intro x hx
      rcases List.mem_append.mp hx with hx | hx
      · exact h1 x hx
      · exact h2 x hx
    · rw [mergeLoop, dif_neg hhp]
      split
      · rename_i hev
        have hmeas := heapPop_wrMeasure hhp
        rw [hev] at hmeas
        simp only [List.length_nil] at hmeas
        exact IH (wrMeasure (heapPop wrLess hp).2) (by omega) _ next current rfl h1 h2
      · rename_i e rest hev
        have hmeas := heapPop_wrMeasure hhp
        rw [hev] at hmeas
        simp only [List.length_cons] at hmeas
        apply IH (wrMeasure (heapPush wrLess (heapPop wrLess hp).2
            { (heapPop wrLess hp).1 with events := rest }))
          (by simp only [heapPush_wrMeasure]; omega) _ _ _ rfl
        · intro x hx
          rcases updateTail_mem hx with hx | ⟨v, hv, rfl⟩
          · rcases List.mem_append.mp hx with hx | hx
            · exact h1 x hx
            · exact h2 x (List.take_subset _ _ hx)
          · exact hv
        · intro x hx
          exact h2 x (List.drop_subset _ _ hx)

theorem appendFold_decoded {V : Type} (decode : KeyValueDecoder V) :
    ∀ (kvs : List MvccKV) (init : KeyValues V),
    (∀ x ∈ init, decode x.raw = some x.decoded) →
    ∀ x ∈ kvs.foldl (fun l kv => (appendKeyValue decode l kv).1) init,
      decode x.raw = some x.decoded := by
  intro kvs
  induction kvs with
  | nil =>
    intro init h x hx
    exact h x hx
  | cons kv rest ih =>
    intro init h x hx
    rw [List.foldl_cons] at hx
    refine ih _ ?_ x hx
    intro y hy
    rcases appendKeyValue_mem hy with hy | ⟨v, hv, rfl⟩
    · exact h y hy
    · exact hv

theorem loadFoldM_decoded {V : Type} (decode : KeyValueDecoder V) :
    ∀ (responses : List GetResponse) (s s' : KeySpaceState V),
    (∀ x ∈ s.keyValues, decode x.raw = some x.decoded) →
    responses.foldlM (fun (s : KeySpaceState V) (resp : GetResponse) =>
      match patchHeader s.header resp.header true with
      | .error e => (.error e : Except String (KeySpaceState V))
      | .ok h2 =>
        .ok { header := h2,
              keyValues := resp.kvs.foldl
                (fun kvs kv => (appendKeyValue decode kvs kv).1) s.keyValues }) s
      = .ok s' →
    ∀ x ∈ s'.keyValues, decode x.raw = some x.decoded := by
  intro responses
  induction responses with
  | nil =>
    intro s s' hs h
    replace h : (Except.ok s : Except String (KeySpaceState V)) = .ok s' := h
    injection h with h
    rw [← h]
    exact hs
  | cons r rest ih =>
    intro s s' hs h
    rw [List.foldlM_cons] at h
    cases hp : patchHeader s.header r.header true with
    | error e =>
      rw [hp] at h
      replace h : (Except.error e : Except String (KeySpaceState V)) = .ok s' := h
      exact Except.noConfusion h
    | ok h2 =>
      rw [hp] at h
      exact ih _ s' (appendFold_decoded decode r.kvs s.keyValues hs) h

theorem loadFoldM_header {V : Type} (d1 d2 : KeyValueDecoder V) :
    ∀ (responses : List GetResponse) (s1 s2 : KeySpaceState V), s1.header = s2.header →
    (∃ e, responses.foldlM (fun (s : KeySpaceState V) (resp : GetResponse) =>
        match patchHeader s.header resp.header true with
        | .error e => (.error e : Except String (KeySpaceState V))
        | .ok h2 =>
          .ok { header := h2,
                keyValues := resp.kvs.foldl
                  (fun kvs kv => (appendKeyValue d1 kvs kv).1) s.keyValues }) s1
        = .error e ∧
      responses.foldlM (fun (s : KeySpaceState V) (resp : GetResponse) =>
        match patchHeader s.header resp.header true with
        | .error e => (.error e : Except String (KeySpaceState V))
        | .ok h2 =>
          .ok { header := h2,
                keyValues := resp.kvs.foldl
                  (fun kvs kv => (appendKeyValue d2 kvs kv).1) s.keyValues }) s2
        = .error e) ∨
    (∃ t1 t2, responses.foldlM (fun (s : KeySpaceState V) (resp : GetResponse) =>
        match patchHeader s.header resp.header true with
        | .error e => (.error e : Except String (KeySpaceState V))
        | .ok h2 =>
          .ok { header := h2,
                keyValues := resp.kvs.foldl
                  (fun kvs kv => (appendKeyValue d1 kvs kv).1) s.keyValues }) s1
        = .ok t1 ∧
      responses.foldlM (fun (s : KeySpaceState V) (resp : GetResponse) =>
        match patchHeader s.header resp.header true with
        | .error e => (.error e : Except String (KeySpaceState V))
        | .ok h2 =>
          .ok { header := h2,
                keyValues := resp.kvs.foldl
                  (fun kvs kv => (appendKeyValue d2 kvs kv).1) s.keyValues }) s2
        = .ok t2 ∧ t1.header = t2.header) := by
  intro responses
  induction responses with
  | nil =>
    intro s1 s2 hh
    exact Or.inr ⟨s1, s2, rfl, rfl, hh⟩
  | cons r rest ih =>
    intro s1 s2 hh
    simp only [List.foldlM_cons]
    cases hp : patchHeader s1.header r.header true with
    | error e =>
      have hp2 : patchHeader s2.header r.header true = .error e := by
        rw [← hh]
        exact hp
      rw [hp2]
      exact Or.inl ⟨e, rfl, rfl⟩
    | ok h2 =>
      have hp2 : patchHeader s2.header r.header true = .ok h2 := by
        rw [← hh]
        exact hp
      rw [hp2]
      exact ih _ _ rfl


theorem events_sublist_flatMap {wr : WatchResponse} :
    ∀ {rs : List WatchResponse}, wr ∈ rs →
    wr.events.Sublist (rs.flatMap (fun w => w.events)) := by
  intro rs
  induction rs with
  | nil =>
    intro h
    cases h
  | cons a as ih =>
    intro h
    rw [List.flatMap_cons]
    rcases List.mem_cons.mp h with rfl | h
    · exact List.sublist_append_left _ _
    · exact (ih h).trans (List.sublist_append_right _ _)

theorem flatMap_sortEvts_perm (rs : List WatchResponse) :
    List.Perm ((rs.map (fun wr => { wr with events := sortEvts wr.events })).flatMap
      (fun w => w.events)) (rs.flatMap (fun w => w.events)) := by
  induction rs with
  | nil => exact List.Perm.refl _
  | cons r rest ih =>
    rw [List.map_cons, List.flatMap_cons, List.flatMap_cons]
    exact List.Perm.append (sortEvts_perm r.events) ih

/-- Every successful Apply computes the reference fold: the prior sorted
list with every event applied in ascending (key, modification-revision)
order.  `L` is any such enumeration of the batch's events; the hypotheses
are Etcd's delivery guarantees. -/
theorem apply_keyValues_eq_ref {V : Type} (decode : KeyValueDecoder V)
    (ks : KeySpaceState V) (responses : List WatchResponse)
    (ks' : KeySpaceState V) (L : List Event)
    (hsorted : kvsSorted ks.keyValues)
    (hmod : ∀ wr ∈ responses,
      List.Pairwise (fun a b : Event => a.kv.modRevision ≤ b.kv.modRevision) wr.events)
    (hdist : evsDistinct (responses.flatMap (fun w => w.events)))
    (hperm : List.Perm L (responses.flatMap (fun w => w.events)))
    (hLs : evsSorted L)
    (happly : KeySpace.apply decode ks responses = (ks', none)) :
    ks'.keyValues = applyEvents decode ks.keyValues L := by
  have hsymm : ∀ (a b : Event), evKM a ≠ evKM b → evKM b ≠ evKM a :=
    fun _ _ h => Ne.symm h
  unfold KeySpace.apply at happly
  cases hf : foldHeaders responses with
  | error e =>
    rw [hf] at happly
    simp at happly
  | ok hdr =>
    rw [hf] at happly
    simp only at happly
    cases hp : patchHeader ks.header hdr
        (responses.length == 1 && (responses.headD default).progressNotify &&
          ks.header.revision == hdr.revision) with
    | error e =>
      rw [hp] at happly
      simp at happly
    | ok h2 =>
      rw [hp] at happly
      have hks : ks'.keyValues = mergeLoop decode
          (heapInit wrLess (responses.map
            (fun wr => { wr with events := sortEvts wr.events }))) [] ks.keyValues := by
        have h3 := congrArg Prod.fst happly
        simp at h3
        rw [← h3]
      rw [hks]
      have hpermInit : List.Perm
          ((heapInit wrLess (responses.map
            (fun wr => { wr with events := sortEvts wr.events }))).flatMap
              (fun w => w.events))
          (responses.flatMap (fun w => w.events)) :=
        (List.Perm.flatMap_right (fun w => w.events)
          (heapInit_perm wrLess _)).trans (flatMap_sortEvts_perm responses)
      have hres := mergeLoop_eq_ref decode
        (heapInit wrLess (responses.map
          (fun wr => { wr with events := sortEvts wr.events }))) [] ks.keyValues L
        ?_ ?_ ?_ ?_ ?_ ?_ ?_ ?_ ?_
      · rw [hres]
        rw [List.nil_append]
      · rw [heapInit_length]
        exact heapInit_isHeap wrLess wrLess_laws _
      · intro wr hw
        have hw2 := (heapInit_perm wrLess _).subset hw
        obtain ⟨w, hw3, rfl⟩ := List.mem_map.mp hw2
        refine sortEvts_sorted (hmod w hw3) ?_
        unfold evsDistinct at hdist ⊢
        exact List.Pairwise.sublist (events_sublist_flatMap hw3) hdist
      · unfold evsDistinct at hdist ⊢
        exact (List.Perm.pairwise_iff (fun h => hsymm _ _ h) hpermInit).mpr hdist
      · exact List.Pairwise.nil
      · exact hsorted
      · intro x hx
        cases hx
      · intro ev hev x hx
        cases hx
      · exact hperm.trans hpermInit.symm
      · exact hLs

/-- C2: on every successful Apply the new KeyValues list is exactly the
reference result — the prior sorted list with every event of every
response applied one at a time in ascending (key, modification-revision)
order — i.e. the stable per-response key sort plus the min-heap
merge-walk compute that reference fold.  `L` is any enumeration of the
batch's events in ascending (key, modification-revision) order; the
hypotheses state Etcd's delivery guarantees (per-response events arrive
with ascending modification revisions, no (key, mod-revision) pair is
delivered twice, and the prior mirror is strictly key-sorted). -/
theorem apply_merge_walk_matches_reference {V : Type} (decode : KeyValueDecoder V)
    (ks : KeySpaceState V) (responses : List WatchResponse)
    (ks' : KeySpaceState V) (L : List Event)
    (hsorted : kvsSorted ks.keyValues)
    (hmod : ∀ wr ∈ responses,
      List.Pairwise (fun a b : Event => a.kv.modRevision ≤ b.kv.modRevision) wr.events)
    (hdist : evsDistinct (responses.flatMap (fun w => w.events)))
    (hperm : List.Perm L (responses.flatMap (fun w => w.events)))
    (hLs : evsSorted L)
    (happly : KeySpace.apply decode ks responses = (ks', none)) :
    ks'.keyValues = applyEvents decode ks.keyValues L :=
  apply_keyValues_eq_ref decode ks responses ks' L hsorted hmod hdist hperm hLs happly

/-- A failed decode contributes nothing at the event's key. -/
theorem evEffect_none {V : Type} (decode : KeyValueDecoder V) {e : Event}
    (hd : decode e.kv = none) : evEffect decode e = [] := by
  obtain ⟨ty, ekv⟩ := e
  replace hd : decode ekv = none := hd
  unfold evEffect
  cases ty <;> rw [hd] <;> rfl

/-- Applying an event whose decode fails to a sorted list leaves no entry
at the event's key: a prior entry there is dropped and nothing is added. -/
theorem applyOne_none_excludes {V : Type} (decode : KeyValueDecoder V) {e : Event}
    (hd : decode e.kv = none) :
    ∀ (l : KeyValues V), kvsSorted l →
    ∀ x ∈ applyOne decode l e, x.raw.key ≠ e.kv.key := by
  intro l
  induction l with
  | nil =>
    intro _ x hx
    rw [applyOne_nil, evEffect_none decode hd] at hx
    cases hx
  | cons kv rest ih =>
    intro hs x hx hk
    have hsp := List.pairwise_cons.mp hs
    cases hc : bytesCompare kv.raw.key e.kv.key with
    | lt =>
      rw [applyOne_cons_lt decode hc] at hx
      rcases List.mem_cons.mp hx with rfl | hx
      · rw [hk, bytesCompare_refl] at hc
        cases hc
      · exact ih hsp.2 x hx hk
    | eq =>
      rw [applyOne_cons_eq decode hc, evEffect_none decode hd, List.nil_append] at hx
      have hlt := hsp.1 x hx
      unfold KeyLt at hlt
      rw [hk, ← bytesCompare_eq_iff.mp hc, bytesCompare_refl] at hlt
      cases hlt
    | gt =>
      rw [applyOne_cons_gt decode hc, evEffect_none decode hd, List.nil_append] at hx
      rcases List.mem_cons.mp hx with rfl | hx
      · rw [hk, bytesCompare_refl] at hc
        cases hc
      · have hlt := hsp.1 x hx
        unfold KeyLt at hlt
        rw [hk] at hlt
        rw [hlt] at hc
        cases hc

theorem applyEvents_sorted {V : Type} (decode : KeyValueDecoder V) :
    ∀ (L : List Event) (l : KeyValues V), kvsSorted l →
    kvsSorted (applyEvents decode l L) := by
  intro L
  induction L with
  | nil =>
    intro l h
    exact h
  | cons e L ih =>
    intro l h
    unfold applyEvents
    rw [List.foldl_cons]
    exact ih (applyOne decode l e) (applyOne_sorted decode l e h)

/-- Events at other keys never (re)introduce an entry at key `k`. -/
theorem applyEvents_keyfree {V : Type} (decode : KeyValueDecoder V) (k : Bytes) :
    ∀ (L : List Event) (l : KeyValues V),
    (∀ x ∈ l, x.raw.key ≠ k) →
    (∀ e ∈ L, e.kv.key ≠ k) →
    ∀ x ∈ applyEvents decode l L, x.raw.key ≠ k := by
  intro L
  induction L with
  | nil =>
    intro l hl _ x hx
    exact hl x hx
  | cons e L ih =>
    intro l hl hL x hx
    unfold applyEvents at hx
    rw [List.foldl_cons] at hx
    refine ih (applyOne decode l e) ?_
      (fun e2 he2 => hL e2 (List.mem_cons_of_mem _ he2)) x hx
    intro y hy
    rcases applyOne_keys decode l e y hy with h | h
    · exact hl y h
    · rw [h]
      exact hL e (List.mem_cons_self e L)

/-- C4 (key_values.go modelled from the spec): a failing decoder never
affects whether Load or Apply succeeds (their success and error are
decoder-independent), and every key whose decode fails is excluded from
the resulting KeyValues state: for Load, all surviving entries carry
their own successful decode and no entry carries an undecodable raw
key/value; for Apply, beyond every surviving entry carrying its own
successful decode, when the batch's only event at a key fails to decode
the resulting state holds no entry at that key at all — in particular a
stale prior entry at that key is dropped, not retained. -/
theorem decode_failures_nonfatal_and_dropped :
    (∀ {V : Type} (d1 d2 : KeyValueDecoder V) (ks : KeySpaceState V) (rev : Int)
      (rs : List GetResponse),
      (KeySpace.load d1 ks rev rs).isOk = (KeySpace.load d2 ks rev rs).isOk) ∧
    (∀ {V : Type} (decode : KeyValueDecoder V) (ks : KeySpaceState V) (rev : Int)
      (rs : List GetResponse) (s' : KeySpaceState V),
      KeySpace.load decode ks rev rs = .ok s' →
      ∀ x ∈ s'.keyValues, decode x.raw = some x.decoded) ∧
    (∀ {V : Type} (decode : KeyValueDecoder V) (ks : KeySpaceState V) (rev : Int)
      (rs : List GetResponse) (s' : KeySpaceState V) (kv : MvccKV),
      KeySpace.load decode ks rev rs = .ok s' → decode kv = none →
      ∀ x ∈ s'.keyValues, x.raw ≠ kv) ∧
    (∀ {V : Type} (d1 d2 : KeyValueDecoder V) (ks : KeySpaceState V)
      (rs : List WatchResponse),
      (KeySpace.apply d1 ks rs).2 = (KeySpace.apply d2 ks rs).2) ∧
    (∀ {V : Type} (decode : KeyValueDecoder V) (ks : KeySpaceState V)
      (rs : List WatchResponse),
      (∀ x ∈ ks.keyValues, decode x.raw = some x.decoded) →
      (KeySpace.apply decode ks rs).2 = none →
      ∀ x ∈ (KeySpace.apply decode ks rs).1.keyValues,
        decode x.raw = some x.decoded) ∧
    (∀ {V : Type} (decode : KeyValueDecoder V) (ks : KeySpaceState V)
      (responses : List WatchResponse) (ks' : KeySpaceState V)
      (L : List Event) (e : Event),
      kvsSorted ks.keyValues →
      (∀ wr ∈ responses,
        List.Pairwise (fun a b : Event => a.kv.modRevision ≤ b.kv.modRevision) wr.events) →
      evsDistinct (responses.flatMap (fun w => w.events)) →
      List.Perm L (responses.flatMap (fun w => w.events)) →
      evsSorted L →
      KeySpace.apply decode ks responses = (ks', none) →
      e ∈ L → decode e.kv = none →
      (∀ e2 ∈ L, e2.kv.key = e.kv.key → e2 = e) →
      ∀ x ∈ ks'.keyValues, x.raw.key ≠ e.kv.key) := by
  have loadDecoded : ∀ {V : Type} (decode : KeyValueDecoder V) (ks : KeySpaceState V)
      (rev : Int) (rs : List GetResponse) (s' : KeySpaceState V),
      KeySpace.load decode ks rev rs = .ok s' →
      ∀ x ∈ s'.keyValues, decode x.raw = some x.decoded := by
    intro V decode ks rev rs s' h
    unfold KeySpace.load at h
    simp only at h
    split at h
    · exact Except.noConfusion h
    · rename_i s hs
      injection h with h
      rw [← h]
      exact loadFoldM_decoded decode rs _ s (by intro x hx; cases hx) hs
  refine ⟨?_, loadDecoded, ?_, ?_, ?_, ?_⟩
  · intro V d1 d2 ks rev rs
    unfold KeySpace.load
    simp only
    rcases loadFoldM_header d1 d2 rs
        { header := ResponseHeader.zero, keyValues := [] }
        { header := ResponseHeader.zero, keyValues := [] } rfl with
      ⟨e, h1, h2⟩ | ⟨t1, t2, h1, h2, -⟩
    · rw [h1, h2]
    · rw [h1, h2]
      rfl
  · intro V decode ks rev rs s' kv h hd x hx hraw
    have := loadDecoded decode ks rev rs s' h x hx
    rw [hraw, hd] at this
    exact Option.noConfusion this
  · intro V d1 d2 ks rs
    unfold KeySpace.apply
    cases hf : foldHeaders rs with
    | error e => rfl
    | ok hdr =>
      simp only
      cases hp : patchHeader ks.header hdr
          (rs.length == 1 && (rs.headD default).progressNotify &&
            ks.header.revision == hdr.revision) with
      | error e =>
        rfl
      | ok h2 =>
        rfl
  · intro V decode ks rs hks h x hx
    unfold KeySpace.apply at h hx
    cases hf : foldHeaders rs with
    | error e =>
      rw [hf] at h
      simp at h
    | ok hdr =>
      rw [hf] at h hx
      simp only at h hx
      cases hp : patchHeader ks.header hdr
          (rs.length == 1 && (rs.headD default).progressNotify &&
            ks.header.revision == hdr.revision) with
      | error e =>
        rw [hp] at h
        simp at h
      | ok h2 =>
        rw [hp] at hx
        have hx2 : x ∈ mergeLoop decode
            (heapInit wrLess (rs.map
              (fun wr => { wr with events := sortEvts wr.events }))) [] ks.keyValues := hx
        exact mergeLoop_decoded decode _ [] ks.keyValues
          (by intro y hy; cases hy) hks x hx2
  · intro V decode ks responses ks' L e hsorted hmod hdist hperm hLs happly heL hd huniq
    have href := apply_keyValues_eq_ref decode ks responses ks' L
      hsorted hmod hdist hperm hLs happly
    have hsymm : ∀ (a b : Event), evKM a ≠ evKM b → evKM b ≠ evKM a :=
      fun _ _ h => Ne.symm h
    have hdistL : List.Pairwise (fun a b : Event => evKM a ≠ evKM b) L := by
      unfold evsDistinct at hdist
      exact (List.Perm.pairwise_iff (fun h => hsymm _ _ h) hperm).mpr hdist
    obtain ⟨L1, L2, rfl⟩ := List.append_of_mem heL
    have hL2 : ∀ e2 ∈ L2, e2.kv.key ≠ e.kv.key := by
      intro e2 he2 hk
      have he2L : e2 ∈ L1 ++ e :: L2 :=
        List.mem_append_right _ (List.mem_cons_of_mem _ he2)
      have he2e : e2 = e := huniq e2 he2L hk
      have hpair := (List.pairwise_append.mp hdistL).2.1
      have hne := (List.pairwise_cons.mp hpair).1 e2 he2
      exact hne (by rw [he2e])
    rw [href]
    unfold applyEvents
    rw [List.foldl_append, List.foldl_cons]
    have hs1 : kvsSorted (List.foldl (applyOne decode) ks.keyValues L1) :=
      applyEvents_sorted decode L1 ks.keyValues hsorted
    have h1 : ∀ x ∈ applyOne decode (List.foldl (applyOne decode) ks.keyValues L1) e,
        x.raw.key ≠ e.kv.key :=
      applyOne_none_excludes decode hd _ hs1
    exact applyEvents_keyfree decode e.kv.key L2 _ h1 hL2

/-! ## Concrete fixtures exercising the theorems above -/

/-- A decoder failing exactly on the raw value `[0]`. -/
def decB : KeyValueDecoder Bytes :=
  fun kv => if kv.value = [0] then none else some kv.value

def kvA : KeyValue Bytes :=
  { raw := { key := [1], value := [10], createRevision := 1, modRevision := 1 },
    decoded := [10] }

def ksB : KeySpaceState Bytes :=
  { header := { clusterId := 0, memberId := 0, revision := 5, raftTerm := 0 },
    keyValues := [kvA] }

def evB : Event :=
  { type := .put,
    kv := { key := [2], value := [20], createRevision := 9, modRevision := 9 } }

def wrB : WatchResponse :=
  { header := { clusterId := 0, memberId := 0, revision := 10, raftTerm := 0 },
    events := [evB], progressNotify := false }

def grB : GetResponse :=
  { header := { clusterId := 0, memberId := 0, revision := 3, raftTerm := 0 },
    kvs := [{ key := [1], value := [10], createRevision := 1, modRevision := 1 },
            { key := [2], value := [0], createRevision := 2, modRevision := 2 }] }

/-- The state produced by `KeySpace.load decB ksB 3 [grB]`. -/
def ldB : KeySpaceState Bytes :=
  { header := { clusterId := 0, memberId := 0, revision := 3, raftTerm := 0 },
    keyValues := [kvA] }

def wrD : WatchResponse :=
  { header := { clusterId := 0, memberId := 0, revision := 4, raftTerm := 0 },
    events := [], progressNotify := false }

/-- A PUT at the key `[1]` of `kvA` whose raw value `[0]` fails to decode. -/
def evF : Event :=
  { type := .put,
    kv := { key := [1], value := [0], createRevision := 9, modRevision := 9 } }

def wrF : WatchResponse :=
  { header := { clusterId := 0, memberId := 0, revision := 10, raftTerm := 0 },
    events := [evF], progressNotify := false }

/-- The state `KeySpace.apply decB ksB [wrF]` produces: the prior entry at
key `[1]` is dropped by the failing PUT and nothing replaces it. -/
def ksF : KeySpaceState Bytes :=
  { header := { clusterId := 0, memberId := 0, revision := 10, raftTerm := 0 },
    keyValues := [] }

theorem heapDown_n0 {α : Type} [Inhabited α] (less : α → α → Bool)
    (l : List α) (i : Nat) : heapDown less l i 0 = l := by
  rw [heapDown, dif_neg (by omega)]

theorem heapUp_zero {α : Type} [Inhabited α] (less : α → α → Bool)
    (l : List α) : heapUp less l 0 = l := by
  rw [heapUp, dif_pos rfl]

theorem heapPop_singleton {α : Type} [Inhabited α] (less : α → α → Bool)
    (x : α) : heapPop less [x] = (x, []) := by
  simp [heapPop, lswap, lgd, heapDown_n0]

theorem heapPush_nil {α : Type} [Inhabited α] (less : α → α → Bool)
    (x : α) : heapPush less [] x = [x] := by
  simp [heapPush, heapUp_zero]

/-- The merge walk of the one-put batch `wrB` over the prior mirror of
`ksB`, evaluated. -/
theorem mergeLoopB_eval :
    mergeLoop decB [wrB] [] ksB.keyValues
      = [kvA, { raw := { key := [2], value := [20], createRevision := 9, modRevision := 9 },
                decoded := [20] }] := by
  show mergeLoop decB [wrB] [] [kvA] = _
  rw [mergeLoop, dif_neg (by decide)]
  split
  · rename_i hev
    rw [heapPop_singleton] at hev
    simp [wrB] at hev
  · rename_i e rest hev
    rw [heapPop_singleton] at hev
    simp only [wrB] at hev
    injection hev with h1 h2
    subst h1
    subst h2
    rw [heapPop_singleton]
    have hstep : mergeStep decB [] [kvA] evB
        = ([kvA, { raw := { key := [2], value := [20], createRevision := 9, modRevision := 9 },
                   decoded := [20] }], []) := rfl
    have hpush : heapPush wrLess [] { wrB with events := [] }
        = [{ wrB with events := [] }] := heapPush_nil wrLess _
    simp only [hstep, hpush]
    rw [mergeLoop, dif_neg (by decide)]
    split
    · rename_i hev2
      rw [heapPop_singleton]
      rw [mergeLoop]
      simp
    · rename_i e2 rest2 hev2
      rw [heapPop_singleton] at hev2
      simp [wrB] at hev2

/-- `KeySpace.Apply` of the one-put batch `wrB` over `ksB`, evaluated. -/
theorem applyB_eval : KeySpace.apply decB ksB [wrB]
    = ({ header := { clusterId := 0, memberId := 0, revision := 10, raftTerm := 0 },
         keyValues := [kvA,
           { raw := { key := [2], value := [20], createRevision := 9, modRevision := 9 },
             decoded := [20] }] }, none) := by
  have hf : foldHeaders [wrB] = .ok wrB.header := rfl
  have hsort : [wrB].map (fun wr => { wr with events := sortEvts wr.events }) = [wrB] := rfl
  have hinit : heapInit wrLess [wrB] = [wrB] := rfl
  unfold KeySpace.apply
  rw [hf]
  simp only
  rw [hsort, hinit, mergeLoopB_eval]
  rfl

/-- The merge walk of the failing-PUT batch `wrF`: the prior entry at the
event's key is moved to the tail, dropped there, and the failed decode
appends nothing. -/
theorem mergeLoopF_eval :
    mergeLoop decB [wrF] [] ksB.keyValues = [] := by
  show mergeLoop decB [wrF] [] [kvA] = _
  rw [mergeLoop, dif_neg (by decide)]
  split
  · rename_i hev
    rw [heapPop_singleton] at hev
    simp [wrF] at hev
  · rename_i e rest hev
    rw [heapPop_singleton] at hev
    simp only [wrF] at hev
    injection hev with h1 h2
    subst h1
    subst h2
    rw [heapPop_singleton]
    have hstep : mergeStep decB [] [kvA] evF = ([], []) := rfl
    have hpush : heapPush wrLess [] { wrF with events := [] }
        = [{ wrF with events := [] }] := heapPush_nil wrLess _
    simp only [hstep, hpush]
    rw [mergeLoop, dif_neg (by decide)]
    split
    · rename_i hev2
      rw [heapPop_singleton]
      rw [mergeLoop]
      simp
    · rename_i e2 rest2 hev2
      rw [heapPop_singleton] at hev2
      simp [wrF] at hev2

/-- `KeySpace.Apply` of the failing-PUT batch `wrF` over `ksB`, evaluated. -/
theorem applyF_eval : KeySpace.apply decB ksB [wrF] = (ksF, none) := by
  have hf : foldHeaders [wrF] = .ok wrF.header := rfl
  have hsort : [wrF].map (fun wr => { wr with events := sortEvts wr.events }) = [wrF] := rfl
  have hinit : heapInit wrLess [wrF] = [wrF] := rfl
  unfold KeySpace.apply
  rw [hf]
  simp only
  rw [hsort, hinit, mergeLoopF_eval]
  rfl

theorem apply_revision_monotonic_witness :
    ksB.header.revision <
      ({ header := { clusterId := 0, memberId := 0, revision := 10, raftTerm := 0 },
         keyValues := [kvA,
           { raw := { key := [2], value := [20], createRevision := 9, modRevision := 9 },
             decoded := [20] }] } : KeySpaceState Bytes).header.revision ∨
    (({ header := { clusterId := 0, memberId := 0, revision := 10, raftTerm := 0 },
        keyValues := [kvA,
          { raw := { key := [2], value := [20], createRevision := 9, modRevision := 9 },
            decoded := [20] }] } : KeySpaceState Bytes).header.revision
        = ksB.header.revision ∧
      ∃ r, [wrB] = [r] ∧ r.progressNotify = true ∧
        r.header.revision = ksB.header.revision) :=
  apply_revision_monotonic decB ksB [wrB] _ applyB_eval

theorem apply_merge_walk_matches_reference_witness :
    ({ header := { clusterId := 0, memberId := 0, revision := 10, raftTerm := 0 },
       keyValues := [kvA,
         { raw := { key := [2], value := [20], createRevision := 9, modRevision := 9 },
           decoded := [20] }] } : KeySpaceState Bytes).keyValues
      = applyEvents decB ksB.keyValues [evB] :=
  apply_merge_walk_matches_reference decB ksB [wrB] _ [evB]
    (by simp [ksB, kvsSorted])
    (by intro wr hwr; rw [List.mem_singleton.mp hwr]; simp [wrB])
    (by unfold evsDistinct; simp [wrB])
    (by simp [wrB])
    (by unfold evsSorted; simp)
    applyB_eval

theorem apply_cluster_id_check_witness :
    (KeySpace.apply decB
      { header := { clusterId := 7, memberId := 0, revision := 5, raftTerm := 0 },
        keyValues := [] }
      [{ header := { clusterId := 9, memberId := 0, revision := 10, raftTerm := 0 },
         events := [], progressNotify := false }]).2.isSome = true ∧
    (KeySpace.apply decB ksB [wrB]).2 = none :=
  ⟨apply_cluster_id_check.1 decB
      { header := { clusterId := 7, memberId := 0, revision := 5, raftTerm := 0 },
        keyValues := [] }
      [{ header := { clusterId := 9, memberId := 0, revision := 10, raftTerm := 0 },
         events := [], progressNotify := false }] 9
      (by decide) (by decide)
      (by intro wr hwr; rw [List.mem_singleton.mp hwr]) (by decide),
   apply_cluster_id_check.2 decB ksB wrB rfl (by decide) (by decide)⟩

theorem decode_failures_nonfatal_and_dropped_witness :
    (KeySpace.load decB ksB 3 [grB]).isOk
      = (KeySpace.load (fun kv => some kv.value) ksB 3 [grB]).isOk ∧
    (∀ x ∈ ldB.keyValues, decB x.raw = some x.decoded) ∧
    (∀ x ∈ ldB.keyValues,
      x.raw ≠ { key := [2], value := [0], createRevision := 2, modRevision := 2 }) ∧
    (∀ x ∈ ksF.keyValues, x.raw.key ≠ evF.kv.key) :=
  ⟨decode_failures_nonfatal_and_dropped.1 decB (fun kv => some kv.value) ksB 3 [grB],
   decode_failures_nonfatal_and_dropped.2.1 decB ksB 3 [grB] _ (by rfl),
   decode_failures_nonfatal_and_dropped.2.2.1 decB ksB 3 [grB] _
     { key := [2], value := [0], createRevision := 2, modRevision := 2 }
     (by rfl) rfl,
   decode_failures_nonfatal_and_dropped.2.2.2.2.2 decB ksB [wrF] ksF [evF] evF
     (by simp [ksB, kvsSorted])
     (by intro wr hwr; rw [List.mem_singleton.mp hwr]; simp [wrF])
     (by unfold evsDistinct; simp [wrF])
     (by simp [wrF])
     (by unfold evsSorted; simp)
     applyF_eval
     (List.mem_singleton.mpr rfl)
     rfl
     (by intro e2 he2 _; rw [List.mem_singleton.mp he2])⟩

theorem waitForRevision_spec_witness :
    waitForRevision 3 [{ revision := 3, ctxErr := none }] = some none ∧
    waitForRevision 5 [{ revision := 4, ctxErr := some "context canceled" }]
      = some (some "context canceled") ∧
    waitForRevision 5 [{ revision := 4, ctxErr := none }, { revision := 6, ctxErr := none }]
      = some none ∧
    (waitLockTrace 5 [{ revision := 4, ctxErr := none }, { revision := 6, ctxErr := none }]).count true
      = (waitLockTrace 5 [{ revision := 4, ctxErr := none },
          { revision := 6, ctxErr := none }]).count false :=
  ⟨waitForRevision_spec.1 3 { revision := 3, ctxErr := none } [] (by decide),
   waitForRevision_spec.2.1 5 { revision := 4, ctxErr := some "context canceled" } []
     "context canceled" (by decide) rfl,
   waitForRevision_spec.2.2.1 5 [{ revision := 4, ctxErr := none }]
     { revision := 6, ctxErr := none } []
     (by intro p hp; rw [List.mem_singleton.mp hp]; exact ⟨by decide, rfl⟩) (by decide),
   waitForRevision_spec.2.2.2 5 [{ revision := 4, ctxErr := none },
     { revision := 6, ctxErr := none }]⟩

theorem maintenance_health_check_gating_witness :
    checkHealthBranch (.ok Status.journalNotFound) = .statusFailed :=
  maintenance_health_check_gating.2.2.2.1 Status.journalNotFound (by decide) (by decide)

theorem observers_run_in_order_under_lock_witness :
    applyActions decB ksB [wrB] 2
      = [KsAction.lock, KsAction.setState]
        ++ (List.range 2).map KsAction.observer ++ [KsAction.signal, KsAction.unlock] ∧
    loadActions decB ksB 3 [grB] 2
      = [KsAction.lock, KsAction.setState]
        ++ (List.range 2).map KsAction.observer ++ [KsAction.signal, KsAction.unlock] :=
  ⟨observers_run_in_order_under_lock.1 decB ksB [wrB] 2 (by rfl),
   observers_run_in_order_under_lock.2 decB ksB 3 [grB] 2 (by rfl)⟩

theorem apply_error_leaves_state_unchanged_witness :
    (KeySpace.apply decB ksB [wrD]).1 = ksB ∧
    (∀ a ∈ applyActions decB ksB [wrD] 2,
      (∀ i : Nat, a ≠ KsAction.observer i) ∧ a ≠ KsAction.signal) :=
  apply_error_leaves_state_unchanged decB ksB [wrD] 2
    "etcd Revision mismatch (expected >)" (by rfl)

theorem newKeySpace_spec_witness :
    newKeySpace ['/', 'g'] = some { root := ['/', 'g'], watchApplyDelay := 30000000 } :=
  newKeySpace_spec.2 ['/', 'g']
    (by simp +decide [pathClean, cleanLoop, cleanCopy, cleanBacktrack,
      Lazybuf.append, Lazybuf.string, Lazybuf.index])

end Gazette
